import Mathlib

/-!
Verification of `test-coroutines.py`, a minimal generator-based cooperative
scheduler with non-blocking socket I/O.

The Python source is shallowly embedded:
* pure computations (request building, URL parsing, response splitting)
  become Lean functions over `String` / `List Char`;
* the generator-based send/receive loops become recursive functions
  consuming an explicit list of environment events (results of the
  non-blocking `send` / `recv` calls);
* the `async_socket` connect/retry/cleanup generator becomes a trace-emitting
  state function;
* the scheduler `run` becomes a fuel-indexed step function over an explicit
  state (deque of pending coroutines, waiting dict, results dict), with the
  readiness `select` call supplied as an oracle parameter.
-/

namespace Coroutines

/-! ## String appending helpers -/

theorem str_append_assoc (a b c : String) : a ++ b ++ c = a ++ (b ++ c) := by
  cases a with | mk la =>
  cases b with | mk lb =>
  cases c with | mk lc =>
  show String.mk ((la ++ lb) ++ lc) = String.mk (la ++ (lb ++ lc))
  rw [List.append_assoc]

theorem str_merge {a b c : String} (h : a ++ b = c) (x : String) :
    a ++ (b ++ x) = c ++ x := by
  rw [← str_append_assoc, h]

/-! ## HTTP request construction (`http_request`, lines 109–121)

Mirrors:
```
headers = f"{method} {path} HTTP/1.1\r\nHost: {host}\r\nConnection: close\r\n"
if data:
    body = data.encode() if isinstance(data, str) else data
    headers += f"Content-Length: {len(body)}\r\n"
    headers += "Content-Type: application/json\r\n"
    headers += "\r\n"
    request = headers.encode() + body
else:
    headers += "\r\n"
    request = headers.encode()
```
`data` is modelled as `Option String`; Python's truthiness test `if data:`
is false for `None` and for the empty string.  `len(body)` is the byte
length of the encoded body, i.e. `utf8ByteSize`.
-/

def buildRequest (method path host : String) (data : Option String) : String :=
  let headers :=
    method ++ " " ++ path ++ " HTTP/1.1\r\nHost: " ++ host ++ "\r\nConnection: close\r\n"
  match data with
  | some d =>
    if d = "" then
      headers ++ "\r\n"
    else
      headers ++ ("Content-Length: " ++ toString d.utf8ByteSize ++ "\r\n")
        ++ "Content-Type: application/json\r\n" ++ "\r\n" ++ d
  | none => headers ++ "\r\n"

/-! ## The non-blocking send loop (`http_request`, lines 124–130)

Mirrors:
```
sent = 0
while sent < len(request):
    try:
        n = sock.send(request[sent:])
        sent += n
    except BlockingIOError:
        yield (sock, 'w')
```
Each iteration performs one non-blocking `send` call; the environment
answers with either "`n` bytes accepted" or a would-block condition
(in the source a `BlockingIOError`, answered by suspending on writability
and retrying).  The event list is the sequence of those answers.  The
function returns the list of accepted byte counts if the loop finished
within the supplied events, and `none` if the events are exhausted first.
-/

inductive SendRes where
  | accepted (n : Nat)
  | wouldBlock
  deriving DecidableEq, Repr

def sendLoop (S : Nat) : List SendRes → Nat → Option (List Nat)
  | evs, sent =>
    if S ≤ sent then some []
    else
      match evs with
      | [] => none
      | SendRes.accepted n :: rest => (sendLoop S rest (sent + n)).map (n :: ·)
      | SendRes.wouldBlock :: rest => sendLoop S rest sent

/-- The kernel contract of non-blocking `send`: the number of bytes a call
accepts never exceeds the number of bytes passed to it, i.e. the remaining
`S - sent` bytes of the request buffer.  Defined alongside `sendLoop` so
that it constrains exactly the send calls the loop performs. -/
def validSends (S : Nat) : List SendRes → Nat → Bool
  | evs, sent =>
    if S ≤ sent then true
    else
      match evs with
      | [] => true
      | SendRes.accepted n :: rest => decide (sent + n ≤ S) && validSends S rest (sent + n)
      | SendRes.wouldBlock :: rest => validSends S rest sent

/-! ## The receive loop and response splitting (`http_request`, lines 132–146)

Mirrors:
```
response = b""
while True:
    yield (sock, 'r')
    while True:
        try:
            chunk = sock.recv(4096)
            if not chunk:
                body = response.decode('utf-8', errors='ignore').split('\r\n\r\n', 1)[1]
                return body
            response += chunk
        except BlockingIOError:
            break
```
`split('\r\n\r\n', 1)[1]` returns the part after the first blank-line
separator; when the separator is absent, `split` yields a single-element
list and the `[1]` indexing fails — the spec's `ProtocolError`.  The
environment events are the successive results of `recv`: a byte chunk
(empty meaning the peer closed the connection) or a would-block condition
(in the source, `BlockingIOError`, answered by suspending on readability).
-/

inductive HErr where
  | protocolError
  deriving DecidableEq, Repr

/-- Outcome of the receive phase: the extracted body on success, or the
error raised by the failed header/body split. -/
inductive RecvOut where
  | ok (body : List Char)
  | err (e : HErr)
  deriving DecidableEq, Repr

def hdrSep : List Char := [ '\x0d', '\x0a', '\x0d', '\x0a' ]

/-- `response.split('\r\n\r\n', 1)[1]`: the bytes after the first
occurrence of the blank-line separator, or `none` when no separator
occurs (in which case the source raises). -/
def splitBody : List Char → Option (List Char)
  | [] => none
  | c :: rest =>
    if hdrSep.isPrefixOf (c :: rest) then some ((c :: rest).drop 4)
    else splitBody rest

inductive RecvRes where
  | chunk (data : List Char)
  | wouldBlock
  deriving DecidableEq, Repr

def recvLoop : List RecvRes → List Char → Option RecvOut
  | [], _ => none
  | RecvRes.wouldBlock :: rest, response => recvLoop rest response
  | RecvRes.chunk [] :: _, response =>
    some (match splitBody response with
      | some body => RecvOut.ok body
      | none => RecvOut.err HErr.protocolError)
  | RecvRes.chunk (c :: cs) :: rest, response => recvLoop rest (response ++ (c :: cs))

/-- All the bytes the receive loop accumulates before the peer closes the
connection: the concatenation of the non-empty chunks preceding the first
zero-length `recv` result. -/
def accumUntilClose : List RecvRes → List Char
  | [] => []
  | RecvRes.wouldBlock :: rest => accumUntilClose rest
  | RecvRes.chunk [] :: _ => []
  | RecvRes.chunk (c :: cs) :: rest => (c :: cs) ++ accumUntilClose rest

/-! ## URL parsing (`http_request`, lines 99–101)

Mirrors:
```
url = url.replace('http://', '')
host, _, path = url.partition('/')
path = '/' + path if path else '/'
```
`str.replace(old, '')` removes every non-overlapping occurrence of `old`,
scanning left to right; `partition('/')` splits at the first `'/'`.
-/

def removeHttp : List Char → List Char
  | 'h' :: 't' :: 't' :: 'p' :: ':' :: '/' :: '/' :: rest => removeHttp rest
  | c :: rest => c :: removeHttp rest
  | [] => []

/-- `url.partition('/')` restricted to the two components the source
uses: the part before the first `'/'` and the part after it
(empty when there is no `'/'`). -/
def partSlash : List Char → List Char × List Char
  | [] => ([], [])
  | c :: rest =>
    if c = '/' then ([], rest)
    else
      let p := partSlash rest
      (c :: p.1, p.2)

def parseUrl (url : List Char) : List Char × List Char :=
  let u := removeHttp url
  let hp := partSlash u
  (hp.1, if hp.2 ≠ [] then '/' :: hp.2 else [ '/' ])

/-- Modelled from the spec claim's words (not from the source): strip a
*leading* `http://` prefix only, then split at the first `'/'`. Used to
compare the claimed behaviour with the source's `replace`-based behaviour. -/
def claimParseUrl (url : List Char) : List Char × List Char :=
  let u :=
    match url with
    | 'h' :: 't' :: 't' :: 'p' :: ':' :: '/' :: '/' :: rest => rest
    | other => other
  let hp := partSlash u
  (hp.1, if hp.2 ≠ [] then '/' :: hp.2 else [ '/' ])

/-! ## The scoped socket resource (`async_socket`, lines 41–78)

Mirrors:
```
def async_socket(host, port, retries=3):
    sock = None
    last_error = None
    for attempt in range(retries):
        try:
            sock = socket.socket()
            sock.setblocking(False)
            try:
                sock.connect((host, port))
            except BlockingIOError:
                pass
            yield (sock, 'w')
            err = sock.getsockopt(socket.SOL_SOCKET, socket.SO_ERROR)
            if err != 0:
                raise Exception(f"Connection error: {err}")
            break
        except Exception as e:
            if sock:
                sock.close()
                sock = None
            last_error = e
            if attempt < retries - 1:
                time.sleep(0.1 * (2 ** attempt))
    if not sock:
        raise Exception(f"Failed after {retries} attempts: {last_error}")
    try:
        yield sock
    finally:
        sock.close()
```
The generator's externally observable behaviour is modelled as a trace of
events.  `socket.socket()` returns a fresh handle on each call; handles are
modelled by the attempt number that created them.  The environment decides
each attempt's fate: either setup/`connect` raises before the writability
yield is reached (`AttemptRes.setupFail`), or the attempt reaches
`yield (sock, 'w')` and on resumption `SO_ERROR` reports the given code
(`AttemptRes.sockErr code`, `0` meaning success).

After a successful connect, the held socket is yielded to the consumer
(`http_request` via `async_enter`); on every consumer exit path —
normal completion or a raised error — `http_request`'s `finally` calls
`async_exit(ctx)`, which closes the generator, firing the `finally:
sock.close()` around `yield sock`.
-/

inductive PyErr where
  | connErr (code : Nat)
  | setupErr
  deriving DecidableEq, Repr

inductive AttemptRes where
  | setupFail
  | sockErr (code : Nat)
  deriving DecidableEq, Repr

inductive SockEv where
  | create (h : Nat)
  | yieldWritable (h : Nat)
  | close (h : Nat)
  | sleep (d : ℚ)
  | provide (h : Nat)
  | raiseConnFailed (attempts : Nat)
  deriving DecidableEq, Repr

/-- `time.sleep(0.1 * (2 ** attempt))`. -/
def backoff (attempt : Nat) : ℚ := (1 / 10 : ℚ) * 2 ^ attempt

/-- The `last_error` value an attempt leaves behind. -/
def attemptErr : AttemptRes → PyErr
  | AttemptRes.setupFail => PyErr.setupErr
  | AttemptRes.sockErr code => PyErr.connErr code

/-- The connect loop of `async_socket` (`for attempt in range(retries)`),
unrolled on the number of remaining iterations.  Returns the event trace,
the connected socket handle (if any) and the final `last_error`. -/
def connectGo (env : Nat → AttemptRes) (retries : Nat) :
    Nat → Nat → Option PyErr → List SockEv × Option Nat × Option PyErr
  | 0, _, lastError => ([], none, lastError)
  | remaining + 1, attempt, lastError =>
    match env attempt with
    | AttemptRes.setupFail =>
      let sleepTr := if attempt < retries - 1 then [SockEv.sleep (backoff attempt)] else []
      let r := connectGo env retries remaining (attempt + 1) (some PyErr.setupErr)
      ([SockEv.create attempt, SockEv.close attempt] ++ sleepTr ++ r.1, r.2)
    | AttemptRes.sockErr code =>
      if code = 0 then
        ([SockEv.create attempt, SockEv.yieldWritable attempt], some attempt, lastError)
      else
        let sleepTr := if attempt < retries - 1 then [SockEv.sleep (backoff attempt)] else []
        let r := connectGo env retries remaining (attempt + 1) (some (PyErr.connErr code))
        ([SockEv.create attempt, SockEv.yieldWritable attempt, SockEv.close attempt]
           ++ sleepTr ++ r.1, r.2)

/-- How the consumer's use of the provided socket ends: it either completes
normally or raises.  (The third exit path — the connection attempt failing
before handoff — arises when `connectGo` produces no socket.) -/
inductive ConsumerEnd where
  | normal
  | raises
  deriving DecidableEq, Repr

inductive ASOutcome where
  | completed
  | consumerError
  | connFailed (attempts : Nat) (lastError : Option PyErr)
  deriving DecidableEq, Repr

/-- One full instantiation of `async_socket`: connect loop, then either the
`raise Exception(f"Failed after {retries} attempts: ...")` (no socket), or
handoff of the socket (`yield sock`) followed by the guaranteed
`finally: sock.close()` when the consumer's scope exits on any path. -/
def asyncSocketTrace (env : Nat → AttemptRes) (retries : Nat) (cend : ConsumerEnd) :
    List SockEv × ASOutcome :=
  let c := connectGo env retries retries 0 none
  match c.2.1 with
  | none => (c.1 ++ [SockEv.raiseConnFailed retries], ASOutcome.connFailed retries c.2.2)
  | some h =>
    (c.1 ++ [SockEv.provide h] ++ [SockEv.close h],
     match cend with
     | ConsumerEnd.normal => ASOutcome.completed
     | ConsumerEnd.raises => ASOutcome.consumerError)

/-- The events one failed attempt `i` of the connect loop emits. -/
def attemptEvents (env : Nat → AttemptRes) (retries i : Nat) : List SockEv :=
  (match env i with
   | AttemptRes.setupFail => [SockEv.create i, SockEv.close i]
   | AttemptRes.sockErr _ => [SockEv.create i, SockEv.yieldWritable i, SockEv.close i])
  ++ (if i < retries - 1 then [SockEv.sleep (backoff i)] else [])

/-- The handles created by the trace, in order. -/
def creates (tr : List SockEv) : List Nat :=
  tr.filterMap (fun e => match e with | SockEv.create h => some h | _ => none)

/-- The sleep delays of the trace, in order. -/
def sleeps (tr : List SockEv) : List ℚ :=
  tr.filterMap (fun e => match e with | SockEv.sleep d => some d | _ => none)

/-- The handles closed by the trace, in order. -/
def closes (tr : List SockEv) : List Nat :=
  tr.filterMap (fun e => match e with | SockEv.close h => some h | _ => none)

/-! ## The scheduler (`run`, lines 11–38)

Mirrors:
```
def run(*coroutines):
    tasks = deque(coroutines)
    waiting = {}  # sock -> (coro, 'r'/'w')
    results = {}  # coro -> result
    while tasks or waiting:
        while tasks:
            coro = tasks.popleft()
            try:
                sock, mode = next(coro)
                waiting[sock] = (coro, mode)
            except StopIteration as e:
                results[coro] = e.value
        if waiting:
            readers = [s for s, (c, m) in waiting.items() if m == 'r']
            writers = [s for s, (c, m) in waiting.items() if m == 'w']
            readable, writable, _ = select.select(readers, writers, [])
            for sock in readable + writable:
                coro, _ = waiting.pop(sock)
                tasks.append(coro)
    return list(results.values())
```
A coroutine is modelled by its script: the list of `(socket, mode)`
suspension requests it yields on successive resumptions, followed by how
it ends — a `StopIteration` value or a raised error.  `cid` models the
generator object's identity (the key of `results[coro]`).  Python dicts
are association lists with insertion-order semantics: assignment to an
existing key updates it in place, assignment to a fresh key appends,
`pop` removes the entry.  `select.select` is an oracle: given a round
identifier and the reader/writer socket lists, it returns the
`(readable, writable)` sublists.  Note that `run` catches only
`StopIteration`: any other exception raised by `next(coro)` propagates
out of the loop, as does the `KeyError` of `waiting.pop` on a missing
key.
-/

inductive Mode where
  | r
  | w
  deriving DecidableEq, Repr

inductive Outcome where
  | value (v : Nat)
  | raisedErr (e : Nat)
  deriving DecidableEq, Repr

structure Coro where
  cid : Nat
  steps : List (Nat × Mode)
  outcome : Outcome
  deriving DecidableEq, Repr

inductive ResumeRes where
  | yielded (s : Nat) (m : Mode) (c : Coro)
  | stopped (v : Nat)
  | raisedE (e : Nat)
  deriving DecidableEq, Repr

/-- `next(coro)`: the coroutine runs to its next suspension point and
yields it, or finishes with `StopIteration(value)`, or raises. -/
def resume (c : Coro) : ResumeRes :=
  match c.steps with
  | (s, m) :: rest => ResumeRes.yielded s m ⟨c.cid, rest, c.outcome⟩
  | [] =>
    match c.outcome with
    | Outcome.value v => ResumeRes.stopped v
    | Outcome.raisedErr e => ResumeRes.raisedE e

/-- Python dict assignment `d[k] = v`: update in place when the key is
present (keeping its position), append when it is fresh. -/
def dictUpd {α : Type} (k : Nat) (v : α) : List (Nat × α) → List (Nat × α)
  | [] => [(k, v)]
  | (k', v') :: rest => if k' = k then (k, v) :: rest else (k', v') :: dictUpd k v rest

/-- Python `d.pop(k)`: the value and the remaining dict, or `none`
(a `KeyError`) when the key is absent. -/
def dictPop {α : Type} (k : Nat) : List (Nat × α) → Option (α × List (Nat × α))
  | [] => none
  | (k', v) :: rest =>
    if k' = k then some (v, rest)
    else (dictPop k rest).map (fun p => (p.1, (k', v) :: p.2))

inductive RunErr where
  | taskErr (e : Nat)
  | keyError (s : Nat)
  deriving DecidableEq, Repr

structure RState where
  tasks : List Coro
  waiting : List (Nat × Coro × Mode)
  results : List (Nat × Nat)
  flog : List Nat
  deriving DecidableEq, Repr

/-- The inner drain loop (`while tasks:`).  `flog` is pure
instrumentation recording the identities of the coroutines in the order
they finish; it changes in lockstep with `results` and is used only to
state completion-order properties. -/
def drain : List Coro → List (Nat × Coro × Mode) → List (Nat × Nat) → List Nat →
    Except RunErr (List (Nat × Coro × Mode) × List (Nat × Nat) × List Nat)
  | [], w, res, lg => Except.ok (w, res, lg)
  | c :: cs, w, res, lg =>
    match resume c with
    | ResumeRes.yielded s m c' => drain cs (dictUpd s (c', m) w) res lg
    | ResumeRes.stopped v => drain cs w (dictUpd c.cid v res) (lg ++ [c.cid])
    | ResumeRes.raisedE e => Except.error (RunErr.taskErr e)

/-- `[s for s, (c, m) in waiting.items() if m == ...]`. -/
def readyKeys (w : List (Nat × Coro × Mode)) (m : Mode) : List Nat :=
  (w.filter (fun e => decide (e.2.2 = m))).map (fun e => e.1)

/-- The readiness dispatch (`for sock in readable + writable: ...`). -/
def popReady : List Nat → List (Nat × Coro × Mode) → List Coro →
    Except RunErr (List (Nat × Coro × Mode) × List Coro)
  | [], w, acc => Except.ok (w, acc)
  | s :: ss, w, acc =>
    match dictPop s w with
    | none => Except.error (RunErr.keyError s)
    | some (cm, w') => popReady ss w' (acc ++ [cm.1])

inductive RunRes where
  | ok (results : List (Nat × Nat)) (flog : List Nat)
  | err (e : RunErr)
  | fuelOut
  deriving DecidableEq, Repr

/-- The outer loop (`while tasks or waiting:`), driven by fuel.  `sel` is
the `select.select` oracle; it receives the current fuel value as a round
identifier. -/
def runAux (sel : Nat → List Nat → List Nat → List Nat × List Nat) :
    Nat → RState → RunRes
  | 0, _ => RunRes.fuelOut
  | fuel + 1, st =>
    if st.tasks = [] ∧ st.waiting = [] then RunRes.ok st.results st.flog
    else
      match drain st.tasks st.waiting st.results st.flog with
      | Except.error e => RunRes.err e
      | Except.ok (w, res, lg) =>
        if w = [] then runAux sel fuel ⟨[], [], res, lg⟩
        else
          let readers := readyKeys w Mode.r
          let writers := readyKeys w Mode.w
          let rw := sel fuel readers writers
          match popReady (rw.1 ++ rw.2) w [] with
          | Except.error e => RunRes.err e
          | Except.ok (w', newTasks) => runAux sel fuel ⟨newTasks, w', res, lg⟩

/-- `run(*coroutines)` starts with all coroutines pending and everything
else empty. -/
def initState (coros : List Coro) : RState := ⟨coros, [], [], []⟩

/-- The `select.select` oracle that reports every waited-on socket ready. -/
def selAll : Nat → List Nat → List Nat → List Nat × List Nat := fun _ rs ws => (rs, ws)

/-- An oracle that reports only the writer sockets ready in round `4` and
everything ready otherwise; used to exhibit a completion order that
differs from the submission order. -/
def selSwap : Nat → List Nat → List Nat → List Nat × List Nat :=
  fun n rs ws => if n = 4 ∧ ws ≠ [] then ([], ws) else (rs, ws)

/-- Contract of the `select.select` oracle: it returns duplicate-free
subsets of the reader and writer socket sets, and reports at least one
socket ready whenever it is given at least one (the source calls
`select.select` with no timeout, so the call blocks until some socket is
ready). -/
def SelOK (sel : Nat → List Nat → List Nat → List Nat × List Nat) : Prop :=
  ∀ n rs ws,
    (sel n rs ws).1 ⊆ rs ∧ (sel n rs ws).2 ⊆ ws
      ∧ (rs.Nodup → (sel n rs ws).1.Nodup) ∧ (ws.Nodup → (sel n rs ws).2.Nodup)
      ∧ ((rs ≠ [] ∨ ws ≠ []) → (sel n rs ws).1 ++ (sel n rs ws).2 ≠ [])

/-- The identity `i` occurs nowhere in the scheduler state: not among the
pending tasks, the waiting entries, the recorded results or the finish
log. -/
def cidAbsent (i : Nat) (st : RState) : Prop :=
  i ∉ st.tasks.map (fun c => c.cid) ∧ i ∉ st.waiting.map (fun e => e.2.1.cid)
    ∧ i ∉ st.results.map Prod.fst ∧ i ∉ st.flog

/-- The sockets a coroutine's remaining script will wait on. -/
def taskSocks (c : Coro) : List Nat := c.steps.map (fun p => p.1)

/-- Every coroutine identity present in a scheduler state, across the
pending deque, the waiting dict and the results dict. -/
def stCids (st : RState) : List Nat :=
  st.tasks.map (fun c => c.cid) ++ st.waiting.map (fun e => e.2.1.cid)
    ++ st.results.map Prod.fst

/-- Fuel measure: one unit per remaining resumption of each live task. -/
def wt (c : Coro) : Nat := c.steps.length + 1

def meas (st : RState) : Nat :=
  (st.tasks.map wt).sum + (st.waiting.map (fun e => wt e.2.1)).sum

/-- The waiting-dict entries the drain pass adds: one per pending
coroutine whose next resumption yields. -/
def yieldedOf : List Coro → List (Nat × Coro × Mode) :=
  List.filterMap (fun c =>
    match c.steps with
    | (s, m) :: rest => some (s, ⟨c.cid, rest, c.outcome⟩, m)
    | [] => none)

/-- The results the drain pass records: one per pending coroutine whose
next resumption raises `StopIteration`. -/
def finishedOf : List Coro → List (Nat × Nat) :=
  List.filterMap (fun c =>
    match c.steps, c.outcome with
    | [], Outcome.value v => some (c.cid, v)
    | _, _ => none)

/-- The final value of the task with identity `i`, read off the submitted
coroutine list. -/
def valOf (coros : List Coro) (i : Nat) : Nat :=
  match coros.find? (fun c => decide (c.cid = i)) with
  | some c =>
    match c.outcome with
    | Outcome.value v => v
    | Outcome.raisedErr _ => 0
  | none => 0

/-- Invariant tying a reachable scheduler state to the submitted
coroutines: every identity occurs exactly once across the three
collections, live coroutines are suffix-states of submitted ones (same
identity and outcome, waiting on sockets of the original script, a
waiting entry keyed by one of those sockets), results mirror the finish
log, and the pending deque only empties when the waiting dict does. -/
structure Inv (coros : List Coro) (st : RState) : Prop where
  cids_perm : List.Perm (stCids st) (coros.map (fun c => c.cid))
  task_orig : ∀ c ∈ st.tasks, ∃ c0 ∈ coros,
    c0.cid = c.cid ∧ c0.outcome = c.outcome ∧ ∀ s ∈ taskSocks c, s ∈ taskSocks c0
  wait_orig : ∀ e ∈ st.waiting, ∃ c0 ∈ coros,
    c0.cid = e.2.1.cid ∧ c0.outcome = e.2.1.outcome
      ∧ (∀ s ∈ taskSocks e.2.1, s ∈ taskSocks c0) ∧ e.1 ∈ taskSocks c0
  res_log : st.results = st.flog.map (fun i => (i, valOf coros i))
  empty_imp : st.tasks = [] → st.waiting = []

/-! # Theorems -/

/-! ## Helper lemmas for the send loop -/

theorem sendLoop_sum (S : Nat) :
    ∀ (evs : List SendRes) (sent : Nat) (ns : List Nat),
      sent ≤ S → validSends S evs sent = true → sendLoop S evs sent = some ns →
      sent + ns.sum = S := by
  intro evs
  induction evs with
  | nil =>
    intro sent ns hle hval hrun
    simp only [sendLoop] at hrun
    split at hrun
    · next hS =>
      obtain rfl : ([] : List Nat) = ns := by simpa using hrun
      simp only [List.sum_nil]
      omega
    · exact absurd hrun (by simp)
  | cons e rest ih =>
    intro sent ns hle hval hrun
    by_cases hS : S ≤ sent
    · rw [show sendLoop S (e :: rest) sent = some [] from by cases e <;> simp [sendLoop, hS]] at hrun
      obtain rfl : ([] : List Nat) = ns := by simpa using hrun
      simp only [List.sum_nil]
      omega
    · cases e with
      | accepted n =>
        simp only [sendLoop, if_neg hS] at hrun
        simp only [validSends, if_neg hS] at hval
        simp only [Option.map_eq_some'] at hrun
        obtain ⟨ns', hrun', rfl⟩ := hrun
        simp only [Bool.and_eq_true, decide_eq_true_eq] at hval
        have := ih (sent + n) ns' (by omega) hval.2 hrun'
        simp only [List.sum_cons]
        omega
      | wouldBlock =>
        simp only [sendLoop, if_neg hS] at hrun
        simp only [validSends, if_neg hS] at hval
        have := ih sent ns hle hval hrun
        omega

/-! ## Helper lemmas for `partSlash` -/

theorem partSlash_spec :
    ∀ l : List Char,
      partSlash l = (l.takeWhile (fun c => c != '/'), (l.dropWhile (fun c => c != '/')).tail) := by
  intro l
  induction l with
  | nil => rfl
  | cons c rest ih =>
    by_cases hc : c = '/'
    · subst hc
      simp [partSlash, List.takeWhile, List.dropWhile]
    · have hb : (c != '/') = true := by simpa using hc
      simp only [List.takeWhile, List.dropWhile, hb, partSlash, if_neg hc, ih]

/-! ## Helper lemmas for the connect loop -/

theorem creates_append (l1 l2 : List SockEv) : creates (l1 ++ l2) = creates l1 ++ creates l2 := by
  simp [creates]

theorem closes_append (l1 l2 : List SockEv) : closes (l1 ++ l2) = closes l1 ++ closes l2 := by
  simp [closes]

theorem sleeps_append (l1 l2 : List SockEv) : sleeps (l1 ++ l2) = sleeps l1 ++ sleeps l2 := by
  simp [sleeps]

/-- Per-handle close/create bookkeeping of the connect loop: every handle
the loop creates and abandons is closed exactly once inside the loop, the
successfully connected handle (if any) is created but not yet closed, no
handle is created twice, and only handles numbered `≥ attempt` are
created. -/
theorem connectGo_counts (env : Nat → AttemptRes) (retries : Nat) :
    ∀ (remaining attempt : Nat) (lastError : Option PyErr) (h : Nat),
      ((closes (connectGo env retries remaining attempt lastError).1).count h
          + (match (connectGo env retries remaining attempt lastError).2.1 with
             | some hs => if h = hs then 1 else 0
             | none => 0)
        = (creates (connectGo env retries remaining attempt lastError).1).count h)
      ∧ (creates (connectGo env retries remaining attempt lastError).1).count h ≤ 1
      ∧ (h < attempt →
          (creates (connectGo env retries remaining attempt lastError).1).count h = 0) := by
  intro remaining
  induction remaining with
  | zero =>
    intro attempt lastError h
    simp [connectGo, creates, closes]
  | succ rem ih =>
    intro attempt lastError h
    cases henv : env attempt with
    | setupFail =>
      obtain ⟨ih1, ih2, ih3⟩ := ih (attempt + 1) (some PyErr.setupErr) h
      simp only [connectGo, henv]
      rcases hr : connectGo env retries rem (attempt + 1) (some PyErr.setupErr) with ⟨tr, so, le⟩
      rw [hr] at ih1 ih2 ih3
      simp only at ih1 ih2 ih3 ⊢
      rw [show ([SockEv.create attempt, SockEv.close attempt]
            ++ (if attempt < retries - 1 then [SockEv.sleep (backoff attempt)] else []) ++ tr)
          = [SockEv.create attempt, SockEv.close attempt]
            ++ ((if attempt < retries - 1 then [SockEv.sleep (backoff attempt)] else []) ++ tr)
        from by simp]
      rw [creates_append, closes_append]
      have hsl : creates ((if attempt < retries - 1 then [SockEv.sleep (backoff attempt)] else []) ++ tr)
          = creates tr := by
        split <;> simp [creates]
      have hsl' : closes ((if attempt < retries - 1 then [SockEv.sleep (backoff attempt)] else []) ++ tr)
          = closes tr := by
        split <;> simp [closes]
      rw [hsl, hsl']
      by_cases hha : h = attempt
      · subst hha
        have h3 := ih3 (by omega)
        rcases so with _ | hs <;> simp_all [creates, closes, List.count_cons]
      · rcases so with _ | hs <;> simp_all [creates, closes, List.count_cons, Ne.symm hha] <;>
          omega
    | sockErr code =>
      by_cases hc : code = 0
      · subst hc
        simp only [connectGo, henv, if_pos rfl]
        by_cases hha : h = attempt
        · subst hha
          simp [creates, closes, List.count_cons]
        · simp [creates, closes, List.count_cons, Ne.symm hha, hha]
      · obtain ⟨ih1, ih2, ih3⟩ := ih (attempt + 1) (some (PyErr.connErr code)) h
        simp only [connectGo, henv, if_neg hc]
        rcases hr : connectGo env retries rem (attempt + 1) (some (PyErr.connErr code)) with ⟨tr, so, le⟩
        rw [hr] at ih1 ih2 ih3
        simp only at ih1 ih2 ih3 ⊢
        rw [show ([SockEv.create attempt, SockEv.yieldWritable attempt, SockEv.close attempt]
              ++ (if attempt < retries - 1 then [SockEv.sleep (backoff attempt)] else []) ++ tr)
            = [SockEv.create attempt, SockEv.yieldWritable attempt, SockEv.close attempt]
              ++ ((if attempt < retries - 1 then [SockEv.sleep (backoff attempt)] else []) ++ tr)
          from by simp]
        rw [creates_append, closes_append]
        have hsl : creates ((if attempt < retries - 1 then [SockEv.sleep (backoff attempt)] else []) ++ tr)
            = creates tr := by
          split <;> simp [creates]
        have hsl' : closes ((if attempt < retries - 1 then [SockEv.sleep (backoff attempt)] else []) ++ tr)
            = closes tr := by
          split <;> simp [closes]
        rw [hsl, hsl']
        by_cases hha : h = attempt
        · subst hha
          have h3 := ih3 (by omega)
          rcases so with _ | hs <;> simp_all [creates, closes, List.count_cons]
        · rcases so with _ | hs <;> simp_all [creates, closes, List.count_cons, Ne.symm hha] <;>
            omega

/-- On a run of attempts that all fail, the connect loop is exactly the
concatenation of the per-attempt event blocks, produces no socket, and
leaves the last attempt's error in `last_error`. -/
theorem connectGo_fail (env : Nat → AttemptRes) (retries : Nat) :
    ∀ (remaining attempt : Nat) (lastError : Option PyErr),
      (∀ i, attempt ≤ i → i < attempt + remaining → env i ≠ AttemptRes.sockErr 0) →
      connectGo env retries remaining attempt lastError
        = ((List.range' attempt remaining).flatMap (attemptEvents env retries),
           none,
           if remaining = 0 then lastError
           else some (attemptErr (env (attempt + remaining - 1)))) := by
  intro remaining
  induction remaining with
  | zero =>
    intro attempt lastError hf
    simp [connectGo]
  | succ rem ih =>
    intro attempt lastError hf
    have hne : env attempt ≠ AttemptRes.sockErr 0 := hf attempt le_rfl (by omega)
    have hrest : ∀ i, attempt + 1 ≤ i → i < (attempt + 1) + rem → env i ≠ AttemptRes.sockErr 0 :=
      fun i h1 h2 => hf i (by omega) (by omega)
    rw [List.range'_succ]
    cases henv : env attempt with
    | setupFail =>
      simp only [connectGo, henv, ih (attempt + 1) (some PyErr.setupErr) hrest]
      rw [List.flatMap_cons]
      refine Prod.ext ?_ (Prod.ext rfl ?_)
      · simp [attemptEvents, henv, List.append_assoc]
      · simp only
        rcases rem with _ | rem'
        · simp [henv, attemptErr]
        · have hidx : attempt + 1 + (rem' + 1) - 1 = attempt + (rem' + 1 + 1) - 1 := by omega
          simp [hidx]
    | sockErr code =>
      have hc : code ≠ 0 := by
        intro hc0
        exact hne (by rw [henv, hc0])
      simp only [connectGo, henv, if_neg hc, ih (attempt + 1) (some (PyErr.connErr code)) hrest]
      rw [List.flatMap_cons]
      refine Prod.ext ?_ (Prod.ext rfl ?_)
      · simp [attemptEvents, henv, List.append_assoc]
      · simp only
        rcases rem with _ | rem'
        · simp [henv, attemptErr]
        · have hidx : attempt + 1 + (rem' + 1) - 1 = attempt + (rem' + 1 + 1) - 1 := by omega
          simp [hidx]

theorem attemptEvents_no_raise (env : Nat → AttemptRes) (retries i a : Nat) :
    SockEv.raiseConnFailed a ∉ attemptEvents env retries i := by
  simp only [attemptEvents]
  cases env i <;> split <;> simp

theorem creates_attemptEvents (env : Nat → AttemptRes) (retries i : Nat) :
    creates (attemptEvents env retries i) = [i] := by
  cases henv : env i <;> simp only [attemptEvents, henv] <;> split <;> simp [creates]

theorem sleeps_attemptEvents (env : Nat → AttemptRes) (retries i : Nat) :
    sleeps (attemptEvents env retries i)
      = if i < retries - 1 then [backoff i] else [] := by
  cases henv : env i <;> simp only [attemptEvents, henv] <;> split <;> simp [sleeps]

theorem creates_flatMap (env : Nat → AttemptRes) (retries : Nat) :
    ∀ l : List Nat, creates (l.flatMap (attemptEvents env retries)) = l := by
  intro l
  induction l with
  | nil => simp [creates]
  | cons a rest ih => simp [creates_append, creates_attemptEvents, ih]

theorem sleeps_flatMap (env : Nat → AttemptRes) (retries : Nat) :
    ∀ l : List Nat,
      sleeps (l.flatMap (attemptEvents env retries))
        = (l.filter (fun i => decide (i < retries - 1))).map backoff := by
  intro l
  induction l with
  | nil => simp [sleeps]
  | cons a rest ih =>
    simp only [List.flatMap_cons, sleeps_append, sleeps_attemptEvents, ih, List.filter_cons]
    by_cases hc : a < retries - 1 <;> simp [hc]

theorem range_filter_lt (k : Nat) :
    (List.range (k + 1)).filter (fun i => decide (i < k)) = List.range k := by
  rw [List.range_succ, List.filter_append]
  rw [List.filter_eq_self.mpr (fun a ha => by simp [List.mem_range.mp ha])]
  simp

theorem backoff_lt (i j : Nat) (hij : i < j) : backoff i < backoff j := by
  unfold backoff
  have h2 : (2:ℚ) ^ i < 2 ^ j := pow_lt_pow_right₀ one_lt_two hij
  have hb : (0:ℚ) < 1 / 10 := by norm_num
  exact mul_lt_mul_of_pos_left h2 hb

/-! ## Permutation helpers -/

theorem perm_of_mcoe {α : Type} {l1 l2 : List α} (h : (↑l1 : Multiset α) = ↑l2) :
    List.Perm l1 l2 := Multiset.coe_eq_coe.mp h

theorem mcoe_of_perm {α : Type} {l1 l2 : List α} (h : List.Perm l1 l2) :
    (↑l1 : Multiset α) = ↑l2 := Multiset.coe_eq_coe.mpr h

theorem mcoe_append {α : Type} (l1 l2 : List α) :
    ((l1 ++ l2 : List α) : Multiset α) = ↑l1 + ↑l2 := by
  rw [← Multiset.coe_add]

theorem mcoe_cons {α : Type} (a : α) (l : List α) :
    ((a :: l : List α) : Multiset α) = {a} + ↑l := by
  simp [Multiset.singleton_add]

/-! ## Dict lemmas -/

theorem dictUpd_fresh {α : Type} (k : Nat) (v : α) :
    ∀ l : List (Nat × α), k ∉ l.map Prod.fst → dictUpd k v l = l ++ [(k, v)] := by
  intro l
  induction l with
  | nil => intro _; rfl
  | cons e rest ih =>
    intro hk
    cases e with | mk k' v' =>
    simp only [List.map_cons, List.mem_cons] at hk
    push_neg at hk
    simp only [dictUpd, if_neg (Ne.symm hk.1)]
    rw [ih hk.2]
    simp

theorem dictPop_found {α : Type} (k : Nat) :
    ∀ l : List (Nat × α), k ∈ l.map Prod.fst →
      ∃ v l', dictPop k l = some (v, l') ∧ List.Perm l ((k, v) :: l') := by
  intro l
  induction l with
  | nil => intro h; simp at h
  | cons e rest ih =>
    intro hk
    by_cases hek : e.1 = k
    · refine ⟨e.2, rest, ?_, ?_⟩
      · cases e with | mk k' v' =>
        simp only at hek
        simp [dictPop, hek]
      · cases e with | mk k' v' =>
        simp only at hek
        subst hek
        exact List.Perm.refl _
    · have hkrest : k ∈ rest.map Prod.fst := by
        simp only [List.map_cons, List.mem_cons] at hk
        rcases hk with h | h
        · exact absurd h.symm hek
        · exact h
      obtain ⟨v, l', hpop, hperm⟩ := ih hkrest
      refine ⟨v, e :: l', ?_, ?_⟩
      · cases e with | mk k' v' =>
        simp only at hek
        simp [dictPop, hek, hpop]
      · exact List.Perm.trans (List.Perm.cons e hperm) (List.Perm.swap _ _ _)

theorem find_cid_eq :
    ∀ (coros : List Coro), (coros.map (fun c => c.cid)).Nodup →
      ∀ c0 ∈ coros, coros.find? (fun c => decide (c.cid = c0.cid)) = some c0 := by
  intro coros
  induction coros with
  | nil => intro _ c0 h0; simp at h0
  | cons c cs ih =>
    intro hnd c0 h0
    simp only [List.map_cons, List.nodup_cons] at hnd
    rcases List.mem_cons.mp h0 with rfl | hmem
    · exact List.find?_cons_of_pos _ (by simp)
    · have hne : c.cid ≠ c0.cid := by
        intro hEq
        exact hnd.1 (hEq ▸ List.mem_map_of_mem (fun x => x.cid) hmem)
      rw [List.find?_cons_of_neg _ (by simp [hne])]
      exact ih hnd.2 c0 hmem

/-! ## Lemmas about the drain pass -/

theorem mem_yieldedOf {e : Nat × Coro × Mode} :
    ∀ {p : List Coro}, e ∈ yieldedOf p →
      ∃ c ∈ p, c.steps = (e.1, e.2.2) :: e.2.1.steps
        ∧ e.2.1.cid = c.cid ∧ e.2.1.outcome = c.outcome := by
  intro p he
  simp only [yieldedOf, List.mem_filterMap] at he
  obtain ⟨c, hc, hmatch⟩ := he
  refine ⟨c, hc, ?_⟩
  rcases hst : c.steps with _ | ⟨⟨s, m⟩, rest⟩ <;> rw [hst] at hmatch
  · simp at hmatch
  · simp only [Option.some_inj] at hmatch
    subst hmatch
    simp [hst]

theorem mem_finishedOf {pr : Nat × Nat} :
    ∀ {p : List Coro}, pr ∈ finishedOf p →
      ∃ c ∈ p, c.steps = [] ∧ c.outcome = Outcome.value pr.2 ∧ c.cid = pr.1 := by
  intro p hpr
  simp only [finishedOf, List.mem_filterMap] at hpr
  obtain ⟨c, hc, hmatch⟩ := hpr
  refine ⟨c, hc, ?_⟩
  rcases hst : c.steps with _ | ⟨sm, rest⟩ <;> rw [hst] at hmatch
  · rcases hout : c.outcome with v | e <;> rw [hout] at hmatch
    · simp only [Option.some_inj] at hmatch
      subst hmatch
      simp
    · simp at hmatch
  · simp at hmatch

/-- Every pending coroutine either yields or finishes, so its identity
lands in exactly one of the two output lists of the drain pass. -/
theorem cids_partition :
    ∀ (p : List Coro), (∀ c ∈ p, ∃ v, c.outcome = Outcome.value v) →
      List.Perm (p.map (fun c => c.cid))
        ((yieldedOf p).map (fun e => e.2.1.cid) ++ (finishedOf p).map Prod.fst) := by
  intro p
  induction p with
  | nil => intro _; simp [yieldedOf, finishedOf]
  | cons c cs ih =>
    intro hv
    have ihp := ih (fun c' hc' => hv c' (List.mem_cons_of_mem c hc'))
    rcases hst : c.steps with _ | ⟨⟨s, m⟩, rest⟩
    · obtain ⟨v, hout⟩ := hv c (List.mem_cons_self c cs)
      have hy : yieldedOf (c :: cs) = yieldedOf cs := by
        simp [yieldedOf, hst]
      have hf : finishedOf (c :: cs) = (c.cid, v) :: finishedOf cs := by
        simp [finishedOf, hst, hout]
      rw [hy, hf]
      apply perm_of_mcoe
      have := mcoe_of_perm ihp
      simp only [List.map_cons, mcoe_append, mcoe_cons] at this ⊢
      rw [this]
      abel
    · have hy : yieldedOf (c :: cs)
          = (s, ⟨c.cid, rest, c.outcome⟩, m) :: yieldedOf cs := by
        simp [yieldedOf, hst]
      have hf : finishedOf (c :: cs) = finishedOf cs := by
        simp [finishedOf, hst]
      rw [hy, hf]
      apply perm_of_mcoe
      have := mcoe_of_perm ihp
      simp only [List.map_cons, mcoe_append, mcoe_cons] at this ⊢
      rw [this]
      abel

/-- Weight bookkeeping of the drain pass: one unit of fuel measure is
consumed per pending coroutine. -/
theorem wt_partition :
    ∀ p : List Coro,
      ((yieldedOf p).map (fun e => wt e.2.1)).sum + p.length = (p.map wt).sum := by
  intro p
  induction p with
  | nil => simp [yieldedOf]
  | cons c cs ih =>
    rcases hst : c.steps with _ | ⟨⟨s, m⟩, rest⟩
    · have hy : yieldedOf (c :: cs) = yieldedOf cs := by simp [yieldedOf, hst]
      rw [hy]
      simp only [wt] at ih
      simp only [wt, List.length_cons, List.map_cons, List.sum_cons, hst, List.length_nil]
      omega
    · have hy : yieldedOf (c :: cs)
          = (s, ⟨c.cid, rest, c.outcome⟩, m) :: yieldedOf cs := by
        simp [yieldedOf, hst]
      rw [hy]
      simp only [wt] at ih
      simp only [wt, List.length_cons, List.map_cons, List.sum_cons, hst]
      omega

theorem socksDisj_symm :
    Symmetric (fun c1 c2 : Coro => ∀ s ∈ taskSocks c1, s ∉ taskSocks c2) :=
  fun _ _ h s hs hsa => h s hsa hs

/-- The drain pass, when every pending coroutine and waiting entry stems
from pairwise-socket-disjoint submitted coroutines with distinct
identities, never raises, never overwrites an existing waiting entry, and
appends exactly the yielded and finished partitions of the pending
list. -/
theorem drain_ok (coros : List Coro)
    (hdisj : List.Pairwise (fun c1 c2 => ∀ s ∈ taskSocks c1, s ∉ taskSocks c2) coros)
    (hval : ∀ c ∈ coros, ∃ v, c.outcome = Outcome.value v) :
    ∀ (pending : List Coro) (w : List (Nat × Coro × Mode))
      (res : List (Nat × Nat)) (lg : List Nat),
      (∀ c ∈ pending, ∃ c0 ∈ coros, c0.cid = c.cid ∧ c0.outcome = c.outcome
        ∧ ∀ s ∈ taskSocks c, s ∈ taskSocks c0) →
      (∀ e ∈ w, ∃ c0 ∈ coros, c0.cid = e.2.1.cid ∧ c0.outcome = e.2.1.outcome
        ∧ (∀ s ∈ taskSocks e.2.1, s ∈ taskSocks c0) ∧ e.1 ∈ taskSocks c0) →
      (pending.map (fun c => c.cid) ++ w.map (fun e => e.2.1.cid)
        ++ res.map Prod.fst).Nodup →
      drain pending w res lg
        = Except.ok (w ++ yieldedOf pending, res ++ finishedOf pending,
            lg ++ (finishedOf pending).map Prod.fst) := by
  intro pending
  induction pending with
  | nil =>
    intro w res lg _ _ _
    simp [drain, yieldedOf, finishedOf]
  | cons c cs ih =>
    intro w res lg hp hw hcds
    obtain ⟨c0, hc0mem, hc0cid, hc0out, hc0socks⟩ := hp c (List.mem_cons_self c cs)
    rw [List.map_cons] at hcds
    simp only [List.cons_append] at hcds
    rw [List.nodup_cons] at hcds
    obtain ⟨hhead, htail⟩ := hcds
    rcases hst : c.steps with _ | ⟨⟨s, m⟩, rest⟩
    · -- the coroutine finishes with StopIteration
      obtain ⟨v, hv⟩ : ∃ v, c.outcome = Outcome.value v := by
        obtain ⟨v, hv0⟩ := hval c0 hc0mem
        exact ⟨v, by rw [← hc0out, hv0]⟩
      have hresume : resume c = ResumeRes.stopped v := by
        simp [resume, hst, hv]
      have hcidfresh : c.cid ∉ res.map Prod.fst := by
        intro hmem
        exact hhead (List.mem_append.mpr (Or.inr hmem))
      have hupd := dictUpd_fresh c.cid v res hcidfresh
      have hperm : List.Perm
          (c.cid :: (cs.map (fun c => c.cid) ++ w.map (fun e => e.2.1.cid)
            ++ res.map Prod.fst))
          (cs.map (fun c => c.cid) ++ w.map (fun e => e.2.1.cid)
            ++ (res.map Prod.fst ++ [c.cid])) := by
        apply perm_of_mcoe
        simp only [mcoe_cons, mcoe_append]
        abel
      have hnd' := hperm.nodup (List.nodup_cons.mpr ⟨hhead, htail⟩)
      rw [show res.map Prod.fst ++ [c.cid] = (res ++ [(c.cid, v)]).map Prod.fst from by simp]
          at hnd'
      have hihres := ih w (res ++ [(c.cid, v)]) (lg ++ [c.cid])
        (fun c' hc' => hp c' (List.mem_cons_of_mem c hc')) hw hnd'
      have hyeq : yieldedOf (c :: cs) = yieldedOf cs := by simp [yieldedOf, hst]
      have hfeq : finishedOf (c :: cs) = (c.cid, v) :: finishedOf cs := by
        simp [finishedOf, hst, hv]
      simp only [drain, hresume, hupd, hihres, hyeq, hfeq]
      simp [List.append_assoc]
    · -- the coroutine yields a suspension request
      have hresume : resume c = ResumeRes.yielded s m ⟨c.cid, rest, c.outcome⟩ := by
        simp [resume, hst]
      have hsfresh : s ∉ w.map Prod.fst := by
        intro hmem
        obtain ⟨e, hemem, hefst⟩ := List.mem_map.mp hmem
        obtain ⟨e0, he0mem, he0cid, _, _, he0key⟩ := hw e hemem
        have hcidne : c.cid ≠ e.2.1.cid := by
          intro hEq
          have hin : e.2.1.cid ∈ w.map (fun e => e.2.1.cid) :=
            List.mem_map_of_mem (fun e => e.2.1.cid) hemem
          rw [← hEq] at hin
          exact hhead (List.mem_append.mpr (Or.inl (List.mem_append.mpr (Or.inr hin))))
        have hc0ne : c0 ≠ e0 := by
          intro hEq
          exact hcidne (by rw [← hc0cid, hEq, he0cid])
        have hdisj' := List.Pairwise.forall socksDisj_symm hdisj hc0mem he0mem hc0ne
        have hs_in : s ∈ taskSocks c0 := hc0socks s (by simp [taskSocks, hst])
        exact hdisj' s hs_in (hefst ▸ he0key)
      have hupd := dictUpd_fresh s (⟨c.cid, rest, c.outcome⟩, m) w hsfresh
      have hperm : List.Perm
          (c.cid :: (cs.map (fun c => c.cid) ++ w.map (fun e => e.2.1.cid)
            ++ res.map Prod.fst))
          (cs.map (fun c => c.cid) ++ (w.map (fun e => e.2.1.cid) ++ [c.cid])
            ++ res.map Prod.fst) := by
        apply perm_of_mcoe
        simp only [mcoe_cons, mcoe_append]
        abel
      have hnd' := hperm.nodup (List.nodup_cons.mpr ⟨hhead, htail⟩)
      rw [show w.map (fun e => e.2.1.cid) ++ [c.cid]
            = (w ++ [(s, (⟨c.cid, rest, c.outcome⟩ : Coro), m)]).map (fun e => e.2.1.cid)
          from by simp] at hnd'
      have hw' : ∀ e ∈ w ++ [(s, (⟨c.cid, rest, c.outcome⟩ : Coro), m)],
          ∃ c0 ∈ coros, c0.cid = e.2.1.cid ∧ c0.outcome = e.2.1.outcome
            ∧ (∀ s' ∈ taskSocks e.2.1, s' ∈ taskSocks c0) ∧ e.1 ∈ taskSocks c0 := by
        intro e hemem
        rcases List.mem_append.mp hemem with hl | hr
        · exact hw e hl
        · have he : e = (s, (⟨c.cid, rest, c.outcome⟩ : Coro), m) := by simpa using hr
          subst he
          refine ⟨c0, hc0mem, hc0cid, hc0out, ?_, ?_⟩
          · intro s' hs'
            exact hc0socks s' (by simp [taskSocks, hst]; right; simpa [taskSocks] using hs')
          · exact hc0socks s (by simp [taskSocks, hst])
      have hihres := ih (w ++ [(s, ⟨c.cid, rest, c.outcome⟩, m)]) res lg
        (fun c' hc' => hp c' (List.mem_cons_of_mem c hc')) hw' hnd'
      have hyeq : yieldedOf (c :: cs)
          = (s, (⟨c.cid, rest, c.outcome⟩ : Coro), m) :: yieldedOf cs := by
        simp [yieldedOf, hst]
      have hfeq : finishedOf (c :: cs) = finishedOf cs := by
        simp [finishedOf, hst]
      simp only [drain, hresume, hupd, hihres, hyeq, hfeq]
      simp [List.append_assoc]

/-- The readiness dispatch over duplicate-free, present keys succeeds and
moves exactly the selected entries from the waiting dict to the pending
deque, in selection order. -/
theorem popReady_ok :
    ∀ (ss : List Nat) (w : List (Nat × Coro × Mode)) (acc : List Coro),
      ss.Nodup → ((w.map Prod.fst).Nodup) → (∀ s ∈ ss, s ∈ w.map Prod.fst) →
      ∃ picked w', popReady ss w acc
          = Except.ok (w', acc ++ picked.map (fun e => e.2.1))
        ∧ List.Perm w (picked ++ w') ∧ picked.length = ss.length := by
  intro ss
  induction ss with
  | nil =>
    intro w acc _ _ _
    exact ⟨[], w, by simp [popReady], List.Perm.refl w, rfl⟩
  | cons s ss ih =>
    intro w acc hnd hwnd hss
    obtain ⟨v, w1, hpop, hperm⟩ := dictPop_found s w (hss s (List.mem_cons_self s ss))
    have hkeysperm : List.Perm (w.map Prod.fst) (s :: w1.map Prod.fst) := by
      have := hperm.map Prod.fst
      simpa using this
    have hw1nd : (w1.map Prod.fst).Nodup :=
      (List.nodup_cons.mp (hkeysperm.nodup hwnd)).2
    have hssw1 : ∀ s' ∈ ss, s' ∈ w1.map Prod.fst := by
      intro s' hs'
      have hmemw : s' ∈ w.map Prod.fst := hss s' (List.mem_cons_of_mem s hs')
      rcases List.mem_cons.mp (hkeysperm.mem_iff.mp hmemw) with hEq | h
      · exact absurd (hEq ▸ hs') (List.nodup_cons.mp hnd).1
      · exact h
    obtain ⟨picked1, w', hrun, hperm1, hlen⟩ :=
      ih w1 (acc ++ [v.1]) (List.nodup_cons.mp hnd).2 hw1nd hssw1
    refine ⟨(s, v) :: picked1, w', ?_, ?_, ?_⟩
    · simp only [popReady, hpop, hrun, List.map_cons]
      rw [List.append_assoc]
      rfl
    · exact hperm.trans (List.Perm.cons (s, v) hperm1)
    · simp [hlen]

/-- A waiting dict whose entries stem from socket-disjoint originals with
distinct identities has duplicate-free socket keys: at most one
`(task, direction)` entry per socket. -/
theorem wait_keys_nodup (coros : List Coro)
    (hdisj : List.Pairwise (fun c1 c2 => ∀ s ∈ taskSocks c1, s ∉ taskSocks c2) coros)
    (w : List (Nat × Coro × Mode))
    (hw : ∀ e ∈ w, ∃ c0 ∈ coros, c0.cid = e.2.1.cid ∧ c0.outcome = e.2.1.outcome
      ∧ (∀ s ∈ taskSocks e.2.1, s ∈ taskSocks c0) ∧ e.1 ∈ taskSocks c0)
    (hwnd : (w.map (fun e => e.2.1.cid)).Nodup) :
    (w.map Prod.fst).Nodup := by
  have h1 : w.Pairwise (fun a b => a.2.1.cid ≠ b.2.1.cid) := List.pairwise_map.mp hwnd
  have h2 : w.Pairwise (fun a b => a.1 ≠ b.1) := by
    refine List.Pairwise.imp_of_mem ?_ h1
    intro e1 e2 he1 he2 hcid hkey
    obtain ⟨c01, hm1, hcid1, _, _, hk1⟩ := hw e1 he1
    obtain ⟨c02, hm2, hcid2, _, _, hk2⟩ := hw e2 he2
    have hc0ne : c01 ≠ c02 := by
      intro hEq
      exact hcid (by rw [← hcid1, hEq, hcid2])
    have hdisj' := List.Pairwise.forall socksDisj_symm hdisj hm1 hm2 hc0ne
    exact hdisj' e1.1 hk1 (hkey ▸ hk2)
  exact List.pairwise_map.mpr h2

/-- The reader and writer key lists together are a permutation of the
waiting dict's keys (every entry has exactly one of the two modes). -/
theorem readyKeys_perm (w : List (Nat × Coro × Mode)) :
    List.Perm (readyKeys w Mode.r ++ readyKeys w Mode.w) (w.map Prod.fst) := by
  unfold readyKeys
  rw [← List.map_append]
  apply List.Perm.map
  have hfw : w.filter (fun e => decide (e.2.2 = Mode.w))
      = w.filter (fun e => ! decide (e.2.2 = Mode.r)) := by
    apply List.filter_congr
    intro e _
    cases h : e.2.2 <;> simp
  rw [hfw]
  exact List.filter_append_perm _ w

/-- Live coroutines that originate from all-value submitted coroutines
have value outcomes themselves. -/
theorem live_value (coros : List Coro)
    (hval : ∀ c ∈ coros, ∃ v, c.outcome = Outcome.value v)
    {p : List Coro}
    (hp : ∀ c ∈ p, ∃ c0 ∈ coros, c0.cid = c.cid ∧ c0.outcome = c.outcome
      ∧ ∀ s ∈ taskSocks c, s ∈ taskSocks c0) :
    ∀ c ∈ p, ∃ v, c.outcome = Outcome.value v := by
  intro c hc
  obtain ⟨c0, hm, _, hout, _⟩ := hp c hc
  obtain ⟨v, hv⟩ := hval c0 hm
  exact ⟨v, hout ▸ hv⟩

/-- Every result pair the drain pass records carries the value that
`valOf` reads off the submitted coroutine of the same identity. -/
theorem finishedOf_val (coros : List Coro)
    (hnodup : (coros.map (fun c => c.cid)).Nodup)
    {p : List Coro}
    (hp : ∀ c ∈ p, ∃ c0 ∈ coros, c0.cid = c.cid ∧ c0.outcome = c.outcome
      ∧ ∀ s ∈ taskSocks c, s ∈ taskSocks c0) :
    ∀ pr ∈ finishedOf p, pr = (pr.1, valOf coros pr.1) := by
  intro pr hpr
  obtain ⟨c, hc, _, hout, hcid⟩ := mem_finishedOf hpr
  obtain ⟨c0, h0mem, h0cid, h0out, _⟩ := hp c hc
  have hfind : coros.find? (fun c' => decide (c'.cid = pr.1)) = some c0 := by
    have hf := find_cid_eq coros hnodup c0 h0mem
    rw [show c0.cid = pr.1 from by rw [h0cid, hcid]] at hf
    exact hf
  have hval0 : c0.outcome = Outcome.value pr.2 := by rw [h0out, hout]
  have : valOf coros pr.1 = pr.2 := by
    simp [valOf, hfind, hval0]
  rw [this]

/-- Master lemma: from any state satisfying the invariant, given enough
fuel, the scheduler terminates successfully; the finish log is a
permutation of the still-unfinished identities appended to the log so
far, and the results dict maps each logged identity to its value, in
logging order. -/
theorem runAux_master (sel : Nat → List Nat → List Nat → List Nat × List Nat)
    (hsel : SelOK sel) (coros : List Coro)
    (hnodup : (coros.map (fun c => c.cid)).Nodup)
    (hdisj : List.Pairwise (fun c1 c2 => ∀ s ∈ taskSocks c1, s ∉ taskSocks c2) coros)
    (hval : ∀ c ∈ coros, ∃ v, c.outcome = Outcome.value v) :
    ∀ (fuel : Nat) (st : RState), Inv coros st → meas st + 1 ≤ fuel →
      ∃ lg, runAux sel fuel st = RunRes.ok (lg.map (fun i => (i, valOf coros i))) lg
        ∧ List.Perm lg
            (st.flog ++ (st.tasks.map (fun c => c.cid)
              ++ st.waiting.map (fun e => e.2.1.cid))) := by
  intro fuel
  induction fuel with
  | zero =>
    intro st _ hm
    omega
  | succ fuel ih =>
    intro st hinv hm
    have htasksval := live_value coros hval hinv.task_orig
    have hstnodup : (stCids st).Nodup := hinv.cids_perm.symm.nodup hnodup
    by_cases hterm : st.tasks = [] ∧ st.waiting = []
    · refine ⟨st.flog, ?_, ?_⟩
      · simp only [runAux, if_pos hterm, hinv.res_log]
      · simp [hterm.1, hterm.2]
    · have hdr := drain_ok coros hdisj hval st.tasks st.waiting st.results st.flog
        hinv.task_orig hinv.wait_orig (by simpa [stCids] using hstnodup)
      -- the partition equations used throughout the bookkeeping
      have e1 := mcoe_of_perm hinv.cids_perm
      simp only [stCids, List.map_append, mcoe_append] at e1
      have e2 := mcoe_of_perm (cids_partition st.tasks htasksval)
      simp only [List.map_append, mcoe_append] at e2
      have hfin := finishedOf_val coros hnodup hinv.task_orig
      have hfinmap : ((finishedOf st.tasks).map Prod.fst).map
            (fun i => (i, valOf coros i)) = finishedOf st.tasks := by
        rw [List.map_map]
        calc (finishedOf st.tasks).map ((fun i => (i, valOf coros i)) ∘ Prod.fst)
            = (finishedOf st.tasks).map id := by
              apply List.map_congr_left
              intro pr hpr
              simpa using (hfin pr hpr).symm
          _ = finishedOf st.tasks := List.map_id _
      have hreslog1 : st.results ++ finishedOf st.tasks
          = (st.flog ++ (finishedOf st.tasks).map Prod.fst).map
              (fun i => (i, valOf coros i)) := by
        rw [List.map_append, hfinmap, hinv.res_log]
      by_cases hw1 : st.waiting ++ yieldedOf st.tasks = []
      · -- all live coroutines finished during the drain: one silent
        -- iteration with empty collections remains
        obtain ⟨hwnil, hynil⟩ := List.append_eq_nil.mp hw1
        have htne : st.tasks ≠ [] := by
          intro h
          exact hterm ⟨h, hwnil⟩
        have hynilc : ((yieldedOf st.tasks).map (fun e => e.2.1.cid)) = [] := by
          rw [hynil]; rfl
        have hinv' : Inv coros ⟨[], [], st.results ++ finishedOf st.tasks,
            st.flog ++ (finishedOf st.tasks).map Prod.fst⟩ := by
          refine ⟨?_, ?_, ?_, ?_, ?_⟩
          · apply perm_of_mcoe
            simp only [stCids, List.map_append, mcoe_append, List.map_nil]
            rw [← e1]
            rw [hynilc] at e2
            rw [hwnil]
            simp only [List.map_nil, Multiset.coe_nil] at e2 ⊢
            rw [show ((List.map (fun c => c.cid) st.tasks : List Nat) : Multiset Nat)
                  = ↑((finishedOf st.tasks).map Prod.fst) from by rw [e2]; abel]
            abel
          · intro c hc
            simp at hc
          · intro e he
            simp at he
          · exact hreslog1
          · intro _
            rfl
        have hmeas1 : 1 ≤ meas st := by
          rcases hts : st.tasks with _ | ⟨c, cs⟩
          · exact absurd hts htne
          · simp [meas, hts, wt]
            omega
        have hbound' : meas (⟨[], [], st.results ++ finishedOf st.tasks,
            st.flog ++ (finishedOf st.tasks).map Prod.fst⟩ : RState) + 1 ≤ fuel := by
          simp only [meas, List.map_nil, List.sum_nil]
          omega
        obtain ⟨lg, hrun', hperm'⟩ := ih _ hinv' hbound'
        refine ⟨lg, ?_, ?_⟩
        · rw [show runAux sel (fuel + 1) st
              = runAux sel fuel ⟨[], [], st.results ++ finishedOf st.tasks,
                  st.flog ++ (finishedOf st.tasks).map Prod.fst⟩ from by
            simp only [runAux, if_neg hterm, hdr]
            rw [if_pos hw1]]
          exact hrun'
        · simp only [List.map_nil, List.append_nil] at hperm'
          apply perm_of_mcoe
          have hp' := mcoe_of_perm hperm'
          simp only [mcoe_append] at hp' ⊢
          rw [hp', hwnil]
          rw [hynilc] at e2
          simp only [List.map_nil, Multiset.coe_nil] at e2 ⊢
          rw [show ((List.map (fun c => c.cid) st.tasks : List Nat) : Multiset Nat)
                = ↑((finishedOf st.tasks).map Prod.fst) from by rw [e2]; abel]
          abel
      · -- at least one coroutine is waiting: select and dispatch
        have hw1orig : ∀ e ∈ st.waiting ++ yieldedOf st.tasks,
            ∃ c0 ∈ coros, c0.cid = e.2.1.cid ∧ c0.outcome = e.2.1.outcome
              ∧ (∀ s ∈ taskSocks e.2.1, s ∈ taskSocks c0) ∧ e.1 ∈ taskSocks c0 := by
          intro e he
          rcases List.mem_append.mp he with hl | hr
          · exact hinv.wait_orig e hl
          · obtain ⟨c, hc, hsteps, hcid, hout⟩ := mem_yieldedOf hr
            obtain ⟨c0, h0mem, h0cid, h0out, h0socks⟩ := hinv.task_orig c hc
            refine ⟨c0, h0mem, by rw [h0cid, ← hcid], by rw [h0out, ← hout], ?_, ?_⟩
            · intro s' hs'
              apply h0socks
              rw [taskSocks, hsteps]
              exact List.mem_cons_of_mem _ hs'
            · apply h0socks
              rw [taskSocks, hsteps]
              exact List.mem_cons_self _ _
        have hbigperm : List.Perm (stCids st)
            ((st.waiting ++ yieldedOf st.tasks).map (fun e => e.2.1.cid)
              ++ ((finishedOf st.tasks).map Prod.fst ++ st.results.map Prod.fst)) := by
          apply perm_of_mcoe
          simp only [stCids, List.map_append, mcoe_append]
          rw [e2]
          abel
        have hw1cidnd : ((st.waiting ++ yieldedOf st.tasks).map
            (fun e => e.2.1.cid)).Nodup :=
          (List.nodup_append.mp (hbigperm.nodup hstnodup)).1
        have hw1keysnd := wait_keys_nodup coros hdisj _ hw1orig hw1cidnd
        have hrwnd : (readyKeys (st.waiting ++ yieldedOf st.tasks) Mode.r
            ++ readyKeys (st.waiting ++ yieldedOf st.tasks) Mode.w).Nodup :=
          (readyKeys_perm _).symm.nodup hw1keysnd
        obtain ⟨hndr, hndw, hdisjrw⟩ := List.nodup_append.mp hrwnd
        obtain ⟨hsub1, hsub2, hnd1', hnd2', hne⟩ :=
          hsel fuel (readyKeys (st.waiting ++ yieldedOf st.tasks) Mode.r)
            (readyKeys (st.waiting ++ yieldedOf st.tasks) Mode.w)
        have hssnd : ((sel fuel (readyKeys (st.waiting ++ yieldedOf st.tasks) Mode.r)
              (readyKeys (st.waiting ++ yieldedOf st.tasks) Mode.w)).1
            ++ (sel fuel (readyKeys (st.waiting ++ yieldedOf st.tasks) Mode.r)
              (readyKeys (st.waiting ++ yieldedOf st.tasks) Mode.w)).2).Nodup := by
          refine List.nodup_append.mpr ⟨hnd1' hndr, hnd2' hndw, ?_⟩
          intro a ha hb
          exact hdisjrw (hsub1 ha) (hsub2 hb)
        have hssmem : ∀ s ∈ (sel fuel (readyKeys (st.waiting ++ yieldedOf st.tasks) Mode.r)
              (readyKeys (st.waiting ++ yieldedOf st.tasks) Mode.w)).1
            ++ (sel fuel (readyKeys (st.waiting ++ yieldedOf st.tasks) Mode.r)
              (readyKeys (st.waiting ++ yieldedOf st.tasks) Mode.w)).2,
            s ∈ (st.waiting ++ yieldedOf st.tasks).map Prod.fst := by
          intro s hs
          apply (readyKeys_perm (st.waiting ++ yieldedOf st.tasks)).mem_iff.mp
          rcases List.mem_append.mp hs with h | h
          · exact List.mem_append.mpr (Or.inl (hsub1 h))
          · exact List.mem_append.mpr (Or.inr (hsub2 h))
        have hssne : (sel fuel (readyKeys (st.waiting ++ yieldedOf st.tasks) Mode.r)
              (readyKeys (st.waiting ++ yieldedOf st.tasks) Mode.w)).1
            ++ (sel fuel (readyKeys (st.waiting ++ yieldedOf st.tasks) Mode.r)
              (readyKeys (st.waiting ++ yieldedOf st.tasks) Mode.w)).2 ≠ [] := by
          apply hne
          by_contra hcon
          push_neg at hcon
          have hkeysnil : (st.waiting ++ yieldedOf st.tasks).map Prod.fst = [] := by
            have := mcoe_of_perm (readyKeys_perm (st.waiting ++ yieldedOf st.tasks))
            rw [hcon.1, hcon.2] at this
            simpa using this.symm
          exact hw1 (by simpa using hkeysnil)
        obtain ⟨picked, w', hpr, hpermw, hlen⟩ :=
          popReady_ok _ (st.waiting ++ yieldedOf st.tasks) [] hssnd hw1keysnd hssmem
        have hpickedne : picked ≠ [] := by
          intro hnil
          rw [hnil] at hlen
          exact hssne (List.length_eq_zero.mp hlen.symm)
        have e3 := mcoe_of_perm (hpermw.map (fun e => e.2.1.cid))
        simp only [List.map_append, mcoe_append] at e3
        have hinv' : Inv coros ⟨picked.map (fun e => e.2.1), w',
            st.results ++ finishedOf st.tasks,
            st.flog ++ (finishedOf st.tasks).map Prod.fst⟩ := by
          refine ⟨?_, ?_, ?_, ?_, ?_⟩
          · apply perm_of_mcoe
            simp only [stCids, List.map_append, mcoe_append, List.map_map]
            have hcomp : (picked.map ((fun c => c.cid) ∘ (fun e => e.2.1)))
                = picked.map (fun e => e.2.1.cid) := by
              simp [Function.comp]
            rw [hcomp]
            rw [← e3]
            rw [← e1, e2]
            abel
          · intro c hc
            obtain ⟨e, hemem, rfl⟩ := List.mem_map.mp hc
            have hew1 : e ∈ st.waiting ++ yieldedOf st.tasks :=
              hpermw.symm.mem_iff.mp (List.mem_append.mpr (Or.inl hemem))
            obtain ⟨c0, h0mem, h0cid, h0out, h0socks, _⟩ := hw1orig e hew1
            exact ⟨c0, h0mem, h0cid, h0out, h0socks⟩
          · intro e hemem
            have hew1 : e ∈ st.waiting ++ yieldedOf st.tasks :=
              hpermw.symm.mem_iff.mp (List.mem_append.mpr (Or.inr hemem))
            exact hw1orig e hew1
          · exact hreslog1
          · intro hcon
            exact absurd (List.map_eq_nil_iff.mp hcon) hpickedne
        have htne : st.tasks ≠ [] := by
          intro h
          exact hterm ⟨h, hinv.empty_imp h⟩
        have hlen1 : 1 ≤ st.tasks.length := by
          rcases hts : st.tasks with _ | ⟨c, cs⟩
          · exact absurd hts htne
          · simp
        have hsum2 := wt_partition st.tasks
        have hsum3 : ((st.waiting ++ yieldedOf st.tasks).map (fun e => wt e.2.1)).sum
            = (picked.map (fun e => wt e.2.1)).sum + (w'.map (fun e => wt e.2.1)).sum := by
          have := (hpermw.map (fun e => wt e.2.1)).sum_eq
          simpa [List.map_append] using this
        have hsum4 : ((picked.map (fun e => e.2.1)).map wt).sum
            = (picked.map (fun e => wt e.2.1)).sum := by
          rw [List.map_map]
          rfl
        have hbound' : meas (⟨picked.map (fun e => e.2.1), w',
            st.results ++ finishedOf st.tasks,
            st.flog ++ (finishedOf st.tasks).map Prod.fst⟩ : RState) + 1 ≤ fuel := by
          simp only [meas] at hm ⊢
          simp only [List.map_append, List.sum_append] at hsum3
          rw [hsum4]
          omega
        obtain ⟨lg, hrun', hperm'⟩ := ih _ hinv' hbound'
        refine ⟨lg, ?_, ?_⟩
        · rw [show runAux sel (fuel + 1) st
              = runAux sel fuel ⟨picked.map (fun e => e.2.1), w',
                  st.results ++ finishedOf st.tasks,
                  st.flog ++ (finishedOf st.tasks).map Prod.fst⟩ from by
            simp only [runAux, if_neg hterm, hdr]
            rw [if_neg hw1]
            simp only [hpr, List.nil_append]]
          exact hrun'
        · apply perm_of_mcoe
          have hp' := mcoe_of_perm hperm'
          simp only [mcoe_append, List.map_map] at hp' ⊢
          have hcomp : (picked.map ((fun c => c.cid) ∘ (fun e => e.2.1)))
              = picked.map (fun e => e.2.1.cid) := by
            simp [Function.comp]
          rw [hcomp] at hp'
          rw [hp']
          rw [← e3]
          rw [e2]
          abel

/-! ## Oracle instances -/

theorem selAll_ok : SelOK selAll := by
  intro n rs ws
  refine ⟨fun a h => h, fun a h => h, fun h => h, fun h => h, ?_⟩
  intro h
  rcases h with h | h <;> simp [selAll, h]

theorem selSwap_ok : SelOK selSwap := by
  intro n rs ws
  by_cases hc : n = 4 ∧ ws ≠ []
  · rw [show selSwap n rs ws = ([], ws) from by simp [selSwap, hc]]
    exact ⟨by simp, fun a h => h, fun _ => List.nodup_nil, fun h => h,
      fun _ => by simpa using hc.2⟩
  · rw [show selSwap n rs ws = (rs, ws) from by simp [selSwap, hc]]
    refine ⟨fun a h => h, fun a h => h, fun h => h, fun h => h, ?_⟩
    intro h hnil
    obtain ⟨h1, h2⟩ := List.append_eq_nil.mp hnil
    rcases h with h | h
    · exact h h1
    · exact h h2

/-! ## Absence lemmas: an identity that occurs nowhere in the state never
appears in the output -/

theorem mem_dictUpd_ne {α : Type} (k : Nat) (v : α) :
    ∀ l : List (Nat × α), (l.map Prod.fst).Nodup →
      ∀ e ∈ dictUpd k v l, e = (k, v) ∨ (e ∈ l ∧ e.1 ≠ k) := by
  intro l
  induction l with
  | nil =>
    intro _ e he
    simp only [dictUpd] at he
    exact Or.inl (by simpa using he)
  | cons p rest ih =>
    intro hnd e he
    cases p with | mk k' v' =>
    simp only [List.map_cons, List.nodup_cons] at hnd
    by_cases hk : k' = k
    · subst hk
      rw [show dictUpd k' v ((k', v') :: rest) = (k', v) :: rest from by
        simp [dictUpd]] at he
      rcases List.mem_cons.mp he with rfl | hmem
      · exact Or.inl rfl
      · refine Or.inr ⟨List.mem_cons_of_mem _ hmem, ?_⟩
        intro hEq
        exact hnd.1 (hEq ▸ List.mem_map_of_mem Prod.fst hmem)
    · rw [show dictUpd k v ((k', v') :: rest) = (k', v') :: dictUpd k v rest from by
        simp [dictUpd, hk]] at he
      rcases List.mem_cons.mp he with rfl | hmem
      · exact Or.inr ⟨List.mem_cons_self _ _, hk⟩
      · rcases ih hnd.2 e hmem with h | ⟨h1, h2⟩
        · exact Or.inl h
        · exact Or.inr ⟨List.mem_cons_of_mem _ h1, h2⟩

theorem mem_dictUpd {α : Type} (k : Nat) (v : α) :
    ∀ l : List (Nat × α), ∀ e ∈ dictUpd k v l, e = (k, v) ∨ e ∈ l := by
  intro l
  induction l with
  | nil =>
    intro e he
    exact Or.inl (by simpa [dictUpd] using he)
  | cons p rest ih =>
    intro e he
    cases p with | mk k' v' =>
    by_cases hk : k' = k
    · subst hk
      rw [show dictUpd k' v ((k', v') :: rest) = (k', v) :: rest from by
        simp [dictUpd]] at he
      rcases List.mem_cons.mp he with rfl | hmem
      · exact Or.inl rfl
      · exact Or.inr (List.mem_cons_of_mem _ hmem)
    · rw [show dictUpd k v ((k', v') :: rest) = (k', v') :: dictUpd k v rest from by
        simp [dictUpd, hk]] at he
      rcases List.mem_cons.mp he with rfl | hmem
      · exact Or.inr (List.mem_cons_self _ _)
      · rcases ih e hmem with h | h
        · exact Or.inl h
        · exact Or.inr (List.mem_cons_of_mem _ h)

theorem dictUpd_keys_nodup {α : Type} (k : Nat) (v : α) :
    ∀ l : List (Nat × α), (l.map Prod.fst).Nodup →
      ((dictUpd k v l).map Prod.fst).Nodup := by
  intro l
  induction l with
  | nil => intro _; simp [dictUpd]
  | cons p rest ih =>
    intro hnd
    cases p with | mk k' v' =>
    simp only [List.map_cons, List.nodup_cons] at hnd
    by_cases hk : k' = k
    · subst hk
      rw [show dictUpd k' v ((k', v') :: rest) = (k', v) :: rest from by
        simp [dictUpd]]
      simp only [List.map_cons, List.nodup_cons]
      exact ⟨hnd.1, hnd.2⟩
    · rw [show dictUpd k v ((k', v') :: rest) = (k', v') :: dictUpd k v rest from by
        simp [dictUpd, hk]]
      simp only [List.map_cons, List.nodup_cons]
      refine ⟨?_, ih hnd.2⟩
      intro hmem
      obtain ⟨e, he, hefst⟩ := List.mem_map.mp hmem
      rcases mem_dictUpd k v rest e he with rfl | hmem'
      · exact hk hefst.symm
      · exact hnd.1 (hefst ▸ List.mem_map_of_mem Prod.fst hmem')

theorem mem_dictPop {α : Type} (k : Nat) :
    ∀ (l : List (Nat × α)) (v : α) (l' : List (Nat × α)),
      dictPop k l = some (v, l') → (k, v) ∈ l ∧ ∀ e ∈ l', e ∈ l := by
  intro l
  induction l with
  | nil =>
    intro v l' h
    simp [dictPop] at h
  | cons p rest ih =>
    intro v l' h
    cases p with | mk k' v' =>
    by_cases hk : k' = k
    · subst hk
      rw [show dictPop k' ((k', v') :: rest) = some (v', rest) from by
        simp [dictPop]] at h
      obtain ⟨hv, hl⟩ : v' = v ∧ rest = l' := by simpa using h
      subst hv
      subst hl
      exact ⟨List.mem_cons_self _ _, fun e he => List.mem_cons_of_mem _ he⟩
    · rw [show dictPop k ((k', v') :: rest)
          = (dictPop k rest).map (fun p => (p.1, (k', v') :: p.2)) from by
        simp [dictPop, hk]] at h
      rcases hpop : dictPop k rest with _ | ⟨v0, rest0⟩
      · rw [hpop] at h
        simp at h
      · rw [hpop] at h
        obtain ⟨hv, hl⟩ : v0 = v ∧ (k', v') :: rest0 = l' := by simpa using h
        obtain ⟨hmem, hsub⟩ := ih v0 rest0 hpop
        subst hv
        subst hl
        refine ⟨List.mem_cons_of_mem _ hmem, ?_⟩
        intro e he
        rcases List.mem_cons.mp he with rfl | he'
        · exact List.mem_cons_self _ _
        · exact List.mem_cons_of_mem _ (hsub e he')

theorem popReady_mem :
    ∀ (ss : List Nat) (w : List (Nat × Coro × Mode)) (acc : List Coro)
      (w1 : List (Nat × Coro × Mode)) (ts : List Coro),
      popReady ss w acc = Except.ok (w1, ts) →
      (∀ e ∈ w1, e ∈ w) ∧ ∀ c ∈ ts, c ∈ acc ∨ ∃ e ∈ w, e.2.1 = c := by
  intro ss
  induction ss with
  | nil =>
    intro w acc w1 ts h
    obtain ⟨h1, h2⟩ : w = w1 ∧ acc = ts := by simpa [popReady] using h
    subst h1
    subst h2
    exact ⟨fun e he => he, fun c hc => Or.inl hc⟩
  | cons s ss ih =>
    intro w acc w1 ts h
    rcases hpop : dictPop s w with _ | ⟨cm, w'⟩
    · rw [show popReady (s :: ss) w acc = Except.error (RunErr.keyError s) from by
        simp [popReady, hpop]] at h
      simp at h
    · rw [show popReady (s :: ss) w acc = popReady ss w' (acc ++ [cm.1]) from by
        simp [popReady, hpop]] at h
      obtain ⟨hmem, hsub⟩ := mem_dictPop s w cm w' hpop
      obtain ⟨ih1, ih2⟩ := ih w' (acc ++ [cm.1]) w1 ts h
      refine ⟨fun e he => hsub e (ih1 e he), ?_⟩
      intro c hc
      rcases ih2 c hc with hacc | ⟨e, he, hec⟩
      · rcases List.mem_append.mp hacc with h1 | h1
        · exact Or.inl h1
        · have hccm : c = cm.1 := by simpa using h1
          exact Or.inr ⟨(s, cm), hmem, by rw [hccm]⟩
      · exact Or.inr ⟨e, hsub e he, hec⟩

theorem drain_absent (i : Nat) :
    ∀ (pending : List Coro) (w : List (Nat × Coro × Mode))
      (res : List (Nat × Nat)) (lg : List Nat)
      (w1 : List (Nat × Coro × Mode)) (res1 : List (Nat × Nat)) (lg1 : List Nat),
      i ∉ pending.map (fun c => c.cid) → i ∉ w.map (fun e => e.2.1.cid) →
      i ∉ res.map Prod.fst → i ∉ lg →
      drain pending w res lg = Except.ok (w1, res1, lg1) →
      i ∉ w1.map (fun e => e.2.1.cid) ∧ i ∉ res1.map Prod.fst ∧ i ∉ lg1 := by
  intro pending
  induction pending with
  | nil =>
    intro w res lg w1 res1 lg1 _ hw hres hlg hdr
    obtain ⟨h1, h2, h3⟩ : w = w1 ∧ res = res1 ∧ lg = lg1 := by simpa [drain] using hdr
    subst h1; subst h2; subst h3
    exact ⟨hw, hres, hlg⟩
  | cons c cs ih =>
    intro w res lg w1 res1 lg1 hp hw hres hlg hdr
    have hcne : c.cid ≠ i := by
      intro hEq
      exact hp (by rw [← hEq]; simp)
    have hcs : i ∉ cs.map (fun c => c.cid) := by
      intro hmem
      exact hp (List.mem_cons_of_mem _ hmem)
    rcases hst : c.steps with _ | ⟨⟨s, m⟩, rest⟩
    · rcases hout : c.outcome with v | e
      · rw [show drain (c :: cs) w res lg
            = drain cs w (dictUpd c.cid v res) (lg ++ [c.cid]) from by
          simp [drain, resume, hst, hout]] at hdr
        refine ih w _ _ w1 res1 lg1 hcs hw ?_ ?_ hdr
        · intro hmem
          obtain ⟨e', he', hefst⟩ := List.mem_map.mp hmem
          rcases mem_dictUpd c.cid v res e' he' with rfl | hmem'
          · exact hcne hefst
          · exact hres (hefst ▸ List.mem_map_of_mem Prod.fst hmem')
        · intro hmem
          rcases List.mem_append.mp hmem with h1 | h1
          · exact hlg h1
          · have hic : i = c.cid := by simpa using h1
            exact hcne hic.symm
      · rw [show drain (c :: cs) w res lg = Except.error (RunErr.taskErr e) from by
          simp [drain, resume, hst, hout]] at hdr
        simp at hdr
    · rw [show drain (c :: cs) w res lg
          = drain cs (dictUpd s (⟨c.cid, rest, c.outcome⟩, m) w) res lg from by
        simp [drain, resume, hst]] at hdr
      refine ih _ res lg w1 res1 lg1 hcs ?_ hres hlg hdr
      intro hmem
      obtain ⟨e', he', hecid⟩ := List.mem_map.mp hmem
      rcases mem_dictUpd s (⟨c.cid, rest, c.outcome⟩, m) w e' he' with rfl | hmem'
      · exact hcne hecid
      · exact hw (hecid ▸ List.mem_map_of_mem (fun e => e.2.1.cid) hmem')

theorem runAux_absent (sel : Nat → List Nat → List Nat → List Nat × List Nat)
    (i : Nat) :
    ∀ (fuel : Nat) (st : RState) (res : List (Nat × Nat)) (lg : List Nat),
      (∀ w1 res1 lg1, drain st.tasks st.waiting st.results st.flog
          = Except.ok (w1, res1, lg1) →
        i ∉ w1.map (fun e => e.2.1.cid) ∧ i ∉ res1.map Prod.fst ∧ i ∉ lg1) →
      i ∉ st.results.map Prod.fst → i ∉ st.flog →
      runAux sel fuel st = RunRes.ok res lg →
      i ∉ res.map Prod.fst ∧ i ∉ lg := by
  intro fuel
  induction fuel with
  | zero =>
    intro st res lg _ _ _ hrun
    simp [runAux] at hrun
  | succ fuel ih =>
    intro st res lg hdrabs hres hlg hrun
    simp only [runAux] at hrun
    split at hrun
    · obtain ⟨h1, h2⟩ : st.results = res ∧ st.flog = lg := by simpa using hrun
      subst h1; subst h2
      exact ⟨hres, hlg⟩
    · rcases hdr : drain st.tasks st.waiting st.results st.flog with e | ⟨w1, res1, lg1⟩
      · rw [hdr] at hrun
        simp at hrun
      · rw [hdr] at hrun
        obtain ⟨hw1abs, hres1abs, hlg1abs⟩ := hdrabs w1 res1 lg1 hdr
        simp only at hrun
        split at hrun
        · refine ih _ res lg ?_ hres1abs hlg1abs hrun
          intro w2 res2 lg2 hdr2
          obtain ⟨ha, hb, hc⟩ : ([] : List (Nat × Coro × Mode)) = w2
              ∧ res1 = res2 ∧ lg1 = lg2 := by simpa [drain] using hdr2
          subst ha; subst hb; subst hc
          exact ⟨by simp, hres1abs, hlg1abs⟩
        · rcases hpr : popReady ((sel fuel (readyKeys w1 Mode.r) (readyKeys w1 Mode.w)).1
              ++ (sel fuel (readyKeys w1 Mode.r) (readyKeys w1 Mode.w)).2) w1 []
            with e | ⟨w', ts⟩
          · rw [hpr] at hrun
            simp at hrun
          · rw [hpr] at hrun
            simp only at hrun
            obtain ⟨hsubw, hsubts⟩ := popReady_mem _ w1 [] w' ts hpr
            have hw'abs : i ∉ w'.map (fun e => e.2.1.cid) := by
              intro hmem
              obtain ⟨e', he', hecid⟩ := List.mem_map.mp hmem
              exact hw1abs (hecid ▸ List.mem_map_of_mem (fun e => e.2.1.cid)
                (hsubw e' he'))
            have htsabs : i ∉ ts.map (fun c => c.cid) := by
              intro hmem
              obtain ⟨c, hc, hcid⟩ := List.mem_map.mp hmem
              rcases hsubts c hc with hacc | ⟨e', he', hec⟩
              · simp at hacc
              · refine hw1abs ?_
                rw [← hcid, ← hec]
                exact List.mem_map_of_mem (fun e => e.2.1.cid) he'
            refine ih _ res lg ?_ hres1abs hlg1abs hrun
            intro w2 res2 lg2 hdr2
            exact drain_absent i ts w' res1 lg1 w2 res2 lg2 htsabs hw'abs
              hres1abs hlg1abs hdr2

/-! ## Claim theorems -/

/-- C5: for a request buffer of size `S`, whenever the non-blocking send
loop of `http_request` completes (reaching `sent = len(request)` and
proceeding to the receive phase), the sum of the byte counts accepted by
the individual `send` calls equals exactly `S`.  `validSends` is the
kernel guarantee that one `send` never accepts more bytes than it was
given. -/
theorem send_drains_fully (S : Nat) (evs : List SendRes) (ns : List Nat)
    (hvalid : validSends S evs 0 = true) (hdone : sendLoop S evs 0 = some ns) :
    ns.sum = S := by
  have := sendLoop_sum S evs 0 ns (Nat.zero_le S) hvalid hdone
  omega

/-- Witness for C5 at a concrete event sequence: a send loop over a 5-byte
buffer that accepts 3 bytes, would-blocks once, then accepts 2 bytes. -/
theorem send_drains_fully_witness :
    sendLoop 5 [SendRes.accepted 3, SendRes.wouldBlock, SendRes.accepted 2] 0 = some [3, 2]
      ∧ ([3, 2] : List Nat).sum = 5 :=
  ⟨by decide,
   send_drains_fully 5 [SendRes.accepted 3, SendRes.wouldBlock, SendRes.accepted 2] [3, 2]
     (by decide) (by decide)⟩

/-- C6: the request buffer built by `http_request` is exactly the request
line `METHOD path HTTP/1.1\r\n`, the `Host:` header, the
`Connection: close` header, then — only when a (non-empty) body is
present — the `Content-Length` and `Content-Type: application/json`
headers, then a blank line, then the body bytes, in exactly that order. -/
theorem http_request_wire_format (method path host d : String) :
    (d ≠ "" →
      buildRequest method path host (some d) =
        method ++ " " ++ path ++ " HTTP/1.1\r\n"
          ++ ("Host: " ++ host ++ "\r\n")
          ++ "Connection: close\r\n"
          ++ ("Content-Length: " ++ toString d.utf8ByteSize ++ "\r\n")
          ++ "Content-Type: application/json\r\n"
          ++ "\r\n" ++ d)
    ∧ buildRequest method path host none =
        method ++ " " ++ path ++ " HTTP/1.1\r\n"
          ++ ("Host: " ++ host ++ "\r\n")
          ++ "Connection: close\r\n"
          ++ "\r\n" := by
  constructor
  · intro hd
    simp only [buildRequest, if_neg hd, str_append_assoc]
    rw [str_merge (show (" HTTP/1.1\r\n" : String) ++ "Host: " = " HTTP/1.1\r\nHost: " from by decide)]
    rw [str_merge (show ("\r\n" : String) ++ "Connection: close\r\n" = "\r\nConnection: close\r\n" from by decide)]
  · simp only [buildRequest, str_append_assoc]
    rw [str_merge (show (" HTTP/1.1\r\n" : String) ++ "Host: " = " HTTP/1.1\r\nHost: " from by decide)]
    rw [str_merge (show ("\r\n" : String) ++ "Connection: close\r\n" = "\r\nConnection: close\r\n" from by decide)]

/-- Witness for C6 at concrete values: the POST request issued by `task2`. -/
theorem http_request_wire_format_witness :
    buildRequest "POST" "/post" "httpbin.org" (some "{}") =
      "POST /post HTTP/1.1\r\nHost: httpbin.org\r\nConnection: close\r\nContent-Length: 2\r\nContent-Type: application/json\r\n\r\n{}" := by
  rw [(http_request_wire_format "POST" "/post" "httpbin.org" "{}").1 (by decide)]
  decide

/-- C7: when the peer closes the connection (a zero-length `recv`) and the
accumulated response contains no `\r\n\r\n` blank-line separator, the
receive phase of `http_request` fails with a `ProtocolError` (the failing
`split(...)[1]` indexing of the source). -/
theorem close_without_separator_fails (evs : List RecvRes) (resp : List Char)
    (r : RecvOut)
    (hrun : recvLoop evs resp = some r)
    (hnosep : splitBody (resp ++ accumUntilClose evs) = none) :
    r = RecvOut.err HErr.protocolError := by
  induction evs generalizing resp with
  | nil => simp [recvLoop] at hrun
  | cons e rest ih =>
    cases e with
    | wouldBlock =>
      simp only [recvLoop] at hrun
      exact ih resp hrun (by simpa [accumUntilClose] using hnosep)
    | chunk data =>
      cases data with
      | nil =>
        simp only [accumUntilClose, List.append_nil] at hnosep
        simp only [recvLoop, hnosep, Option.some_inj] at hrun
        exact hrun.symm
      | cons c cs =>
        simp only [recvLoop] at hrun
        refine ih (resp ++ (c :: cs)) hrun ?_
        simpa [accumUntilClose, List.append_assoc] using hnosep

/-- Witness for C7 at a concrete event sequence: the peer sends `"Hi"`
(which contains no blank-line separator) and closes. -/
theorem close_without_separator_fails_witness :
    recvLoop [RecvRes.chunk [ 'H', 'i' ], RecvRes.chunk []] [] =
        some (RecvOut.err HErr.protocolError)
      ∧ splitBody ([] ++ accumUntilClose [RecvRes.chunk [ 'H', 'i' ], RecvRes.chunk []]) = none
      ∧ (RecvOut.err HErr.protocolError : RecvOut) = RecvOut.err HErr.protocolError :=
  ⟨by decide, by decide,
   close_without_separator_fails [RecvRes.chunk [ 'H', 'i' ], RecvRes.chunk []] []
     (RecvOut.err HErr.protocolError) (by decide) (by decide)⟩

/-- C1: every instantiation of the scoped socket resource (`async_socket`)
closes each socket handle it creates exactly once, on every exit path —
the consumer completes normally, the consumer raises, or the connection
attempt fails before the socket is handed to the consumer — and no handle
is ever created (hence closed) twice. -/
theorem socket_closed_exactly_once (env : Nat → AttemptRes) (retries : Nat)
    (cend : ConsumerEnd) (h : Nat) :
    (closes (asyncSocketTrace env retries cend).1).count h
        = (creates (asyncSocketTrace env retries cend).1).count h
      ∧ (creates (asyncSocketTrace env retries cend).1).count h ≤ 1 := by
  obtain ⟨h1, h2, h3⟩ := connectGo_counts env retries retries 0 none h
  rcases hr : connectGo env retries retries 0 none with ⟨tr, so, le⟩
  rw [hr] at h1 h2 h3
  simp only [asyncSocketTrace, hr]
  simp only at h1 h2 h3
  rcases so with _ | hs
  · simp_all [creates_append, closes_append, creates, closes]
  · simp only [creates_append, closes_append]
    by_cases hhs : h = hs <;> simp_all [creates, closes, List.count_cons]

/-- C3: on persistent connection failure the connector makes exactly
`retries` connection attempts (creating the fresh handles `0..retries-1`
in order), sleeps `0.1 * 2^attempt` between consecutive attempts only
(after attempts `0..retries-2`, never after the last), the delays being
strictly increasing, and raises the terminal `ConnectionFailed` failure —
carrying the attempt count and the last attempt's underlying error — only
after the final attempt, as the very last event of the trace. -/
theorem connector_retries (env : Nat → AttemptRes) (retries : Nat) (cend : ConsumerEnd)
    (hpos : 0 < retries)
    (hfail : ∀ i, i < retries → env i ≠ AttemptRes.sockErr 0) :
    ∃ T, (asyncSocketTrace env retries cend).1 = T ++ [SockEv.raiseConnFailed retries]
      ∧ (∀ a, SockEv.raiseConnFailed a ∉ T)
      ∧ creates T = List.range retries
      ∧ sleeps T = (List.range (retries - 1)).map backoff
      ∧ List.Chain' (· < ·) (sleeps T)
      ∧ (asyncSocketTrace env retries cend).2
          = ASOutcome.connFailed retries (some (attemptErr (env (retries - 1)))) := by
  have hcg := connectGo_fail env retries retries 0 none (fun i h1 h2 => hfail i (by omega))
  refine ⟨(List.range retries).flatMap (attemptEvents env retries), ?_, ?_, ?_, ?_, ?_, ?_⟩
  · simp [asyncSocketTrace, hcg, List.range_eq_range']
  · intro a ha
    rw [List.mem_flatMap] at ha
    obtain ⟨i, _, hmem⟩ := ha
    exact attemptEvents_no_raise env retries i a hmem
  · exact creates_flatMap env retries _
  · rw [sleeps_flatMap]
    obtain ⟨k, rfl⟩ : ∃ k, retries = k + 1 := ⟨retries - 1, by omega⟩
    simp only [Nat.add_sub_cancel]
    rw [range_filter_lt]
  · rw [sleeps_flatMap]
    obtain ⟨k, rfl⟩ : ∃ k, retries = k + 1 := ⟨retries - 1, by omega⟩
    simp only [Nat.add_sub_cancel]
    rw [range_filter_lt]
    exact List.Pairwise.chain'
      (List.Pairwise.map backoff (fun a b hab => backoff_lt a b hab) (List.pairwise_lt_range k))
  · have hne : ¬ retries = 0 := by omega
    simp [asyncSocketTrace, hcg, hne]

/-- Witness for C3 at a concrete input: three attempts, each failing with
socket error 111 (connection refused). -/
theorem connector_retries_witness :
    ∃ T, (asyncSocketTrace (fun _ => AttemptRes.sockErr 111) 3 ConsumerEnd.normal).1
          = T ++ [SockEv.raiseConnFailed 3]
      ∧ (∀ a, SockEv.raiseConnFailed a ∉ T)
      ∧ creates T = List.range 3
      ∧ sleeps T = (List.range 2).map backoff
      ∧ List.Chain' (· < ·) (sleeps T)
      ∧ (asyncSocketTrace (fun _ => AttemptRes.sockErr 111) 3 ConsumerEnd.normal).2
          = ASOutcome.connFailed 3 (some (attemptErr ((fun _ => AttemptRes.sockErr 111) (3 - 1)))) :=
  connector_retries (fun _ => AttemptRes.sockErr 111) 3 ConsumerEnd.normal (by decide)
    (fun i _ => by simp)

/-- C2, counterexample: two tasks are submitted and every suspension
request becomes ready (the oracle reports every waited-on socket ready),
yet `run` returns only one result.  The second task's request names the
socket the first task is already waiting on, so `waiting[sock] = ...`
overwrites the first task's entry and that task is never resumed. -/
theorem run_loses_task_on_socket_collision :
    runAux selAll 10 (initState
        [⟨1, [(5, Mode.r)], Outcome.value 10⟩, ⟨2, [(5, Mode.w)], Outcome.value 20⟩])
      = RunRes.ok [(2, 20)] [2]
    ∧ ([(2, 20)] : List (Nat × Nat)).length
        ≠ ([⟨1, [(5, Mode.r)], Outcome.value 10⟩,
            (⟨2, [(5, Mode.w)], Outcome.value 20⟩ : Coro)] : List Coro).length :=
  ⟨by decide, by decide⟩

/-- C2, amended: for every finite set of `N` tasks passed to the
scheduler — with distinct identities, no socket ever waited on by two
different tasks, and every task terminating by `StopIteration` (errors
handled inside the task) — `run` returns exactly `N` results, one per
task, and the main loop terminates (any fuel past the total number of
resumptions suffices), provided every suspension request eventually
becomes ready (`SelOK`: the blocking `select` always reports some waited
socket ready). -/
theorem run_returns_all_results
    (sel : Nat → List Nat → List Nat → List Nat × List Nat)
    (coros : List Coro) (fuel : Nat)
    (hsel : SelOK sel)
    (hnodup : (coros.map (fun c => c.cid)).Nodup)
    (hdisj : List.Pairwise (fun c1 c2 => ∀ s ∈ taskSocks c1, s ∉ taskSocks c2) coros)
    (hval : ∀ c ∈ coros, ∃ v, c.outcome = Outcome.value v)
    (hfuel : meas (initState coros) + 1 ≤ fuel) :
    ∃ res lg, runAux sel fuel (initState coros) = RunRes.ok res lg
      ∧ res.length = coros.length
      ∧ List.Perm (res.map Prod.fst) (coros.map (fun c => c.cid)) := by
  have hinv : Inv coros (initState coros) := by
    refine ⟨?_, ?_, ?_, ?_, ?_⟩
    · simp [stCids, initState]
    · intro c hc
      exact ⟨c, hc, rfl, rfl, fun s hs => hs⟩
    · intro e he
      simp [initState] at he
    · rfl
    · intro _
      rfl
  obtain ⟨lg, hrun, hperm⟩ :=
    runAux_master sel hsel coros hnodup hdisj hval fuel (initState coros) hinv hfuel
  simp only [initState, List.map_nil, List.append_nil, List.nil_append] at hperm
  refine ⟨lg.map (fun i => (i, valOf coros i)), lg, hrun, ?_, ?_⟩
  · rw [List.length_map, hperm.length_eq, List.length_map]
  · have hfst : (lg.map (fun i => (i, valOf coros i))).map Prod.fst = lg := by
      rw [List.map_map]
      exact List.map_id _
    rw [hfst]
    exact hperm

/-- Witness for the amended C2 at a concrete input: two tasks on distinct
sockets, the all-ready oracle, and fuel 10. -/
theorem run_returns_all_results_witness :
    ∃ res lg, runAux selAll 10 (initState
        [⟨1, [(10, Mode.r)], Outcome.value 11⟩, ⟨2, [(20, Mode.w)], Outcome.value 22⟩])
        = RunRes.ok res lg
      ∧ res.length = ([⟨1, [(10, Mode.r)], Outcome.value 11⟩,
          (⟨2, [(20, Mode.w)], Outcome.value 22⟩ : Coro)] : List Coro).length
      ∧ List.Perm (res.map Prod.fst)
          (([⟨1, [(10, Mode.r)], Outcome.value 11⟩,
            (⟨2, [(20, Mode.w)], Outcome.value 22⟩ : Coro)] : List Coro).map
              (fun c => c.cid)) :=
  run_returns_all_results selAll
    [⟨1, [(10, Mode.r)], Outcome.value 11⟩, ⟨2, [(20, Mode.w)], Outcome.value 22⟩] 10
    selAll_ok (by decide) (by decide)
    (fun c hc => by
      rcases List.mem_cons.mp hc with rfl | hc
      · exact ⟨11, rfl⟩
      · rcases List.mem_cons.mp hc with rfl | hc
        · exact ⟨22, rfl⟩
        · simp at hc)
    (by decide)

/-- C4, counterexample: a task that raises an error while being driven is
not recorded in the results — `run` catches only `StopIteration`, so the
error escapes the scheduling loop and the sibling task's result is lost
with it. -/
theorem run_stores_no_raised_error :
    runAux selAll 10 (initState
        [⟨1, [], Outcome.raisedErr 7⟩, ⟨2, [], Outcome.value 5⟩])
      = RunRes.err (RunErr.taskErr 7) := by
  decide

/-- C4, amended: when a task raises an error while being driven, `run`
propagates that error out of the scheduling loop as a fatal failure,
aborting the remaining tasks; it does not store the error as the task's
result (only `StopIteration` completions are stored). -/
theorem run_task_error_propagates
    (sel : Nat → List Nat → List Nat → List Nat × List Nat)
    (fuel cid e : Nat) (ts : List Coro) (w : List (Nat × Coro × Mode))
    (res : List (Nat × Nat)) (lg : List Nat) :
    runAux sel (fuel + 1) ⟨⟨cid, [], Outcome.raisedErr e⟩ :: ts, w, res, lg⟩
      = RunRes.err (RunErr.taskErr e) := by
  simp [runAux, drain, resume]

/-- C8: the scheduler's result collection is in completion order — the
run returns `RunRes.ok res lg` where `lg` lists the task identities in
the order they finished and `res` pairs exactly those identities, in that
same order, with their final values (dict insertion order equals
completion order, not submission order). -/
theorem run_results_completion_order
    (sel : Nat → List Nat → List Nat → List Nat × List Nat)
    (coros : List Coro) (fuel : Nat)
    (hsel : SelOK sel)
    (hnodup : (coros.map (fun c => c.cid)).Nodup)
    (hdisj : List.Pairwise (fun c1 c2 => ∀ s ∈ taskSocks c1, s ∉ taskSocks c2) coros)
    (hval : ∀ c ∈ coros, ∃ v, c.outcome = Outcome.value v)
    (hfuel : meas (initState coros) + 1 ≤ fuel) :
    ∃ lg, runAux sel fuel (initState coros)
        = RunRes.ok (lg.map (fun i => (i, valOf coros i))) lg
      ∧ List.Perm lg (coros.map (fun c => c.cid)) := by
  have hinv : Inv coros (initState coros) := by
    refine ⟨?_, ?_, ?_, ?_, ?_⟩
    · simp [stCids, initState]
    · intro c hc
      exact ⟨c, hc, rfl, rfl, fun s hs => hs⟩
    · intro e he
      simp [initState] at he
    · rfl
    · intro _
      rfl
  obtain ⟨lg, hrun, hperm⟩ :=
    runAux_master sel hsel coros hnodup hdisj hval fuel (initState coros) hinv hfuel
  simp only [initState, List.map_nil, List.append_nil, List.nil_append] at hperm
  exact ⟨lg, hrun, hperm⟩

/-- Witness for C8 at a concrete input where completion order differs
from submission order: the oracle reports only task 2's socket ready
first, so task 2 finishes first and the returned list leads with its
result. -/
theorem run_results_completion_order_witness :
    (∃ lg, runAux selSwap 5 (initState
        [⟨1, [(10, Mode.r)], Outcome.value 11⟩, ⟨2, [(20, Mode.w)], Outcome.value 22⟩])
        = RunRes.ok (lg.map (fun i => (i, valOf
            [⟨1, [(10, Mode.r)], Outcome.value 11⟩,
              ⟨2, [(20, Mode.w)], Outcome.value 22⟩] i))) lg
      ∧ List.Perm lg (([⟨1, [(10, Mode.r)], Outcome.value 11⟩,
          (⟨2, [(20, Mode.w)], Outcome.value 22⟩ : Coro)] : List Coro).map
            (fun c => c.cid)))
    ∧ runAux selSwap 5 (initState
        [⟨1, [(10, Mode.r)], Outcome.value 11⟩, ⟨2, [(20, Mode.w)], Outcome.value 22⟩])
      = RunRes.ok [(2, 22), (1, 11)] [2, 1] :=
  ⟨run_results_completion_order selSwap
    [⟨1, [(10, Mode.r)], Outcome.value 11⟩, ⟨2, [(20, Mode.w)], Outcome.value 22⟩] 5
    selSwap_ok (by decide) (by decide)
    (fun c hc => by
      rcases List.mem_cons.mp hc with rfl | hc
      · exact ⟨11, rfl⟩
      · rcases List.mem_cons.mp hc with rfl | hc
        · exact ⟨22, rfl⟩
        · simp at hc)
    (by decide),
   by decide⟩

/-- C9: the waiting collection is keyed by socket handle alone, so at
every point at most one `(task, direction)` entry exists per socket
(dict assignment preserves duplicate-free keys); and when a resumed task
`B` yields a suspension request naming a socket `s` that already carries
a waiting entry for a different task `A`, that earlier entry is replaced
and `A` is never resumed nor counted in the results: `A`'s identity
appears neither among the returned results' keys nor in the finish
log. -/
theorem waiting_overwrite_loses_task :
    (∀ (w : List (Nat × Coro × Mode)) (s : Nat) (v : Coro × Mode),
        (w.map Prod.fst).Nodup → ((dictUpd s v w).map Prod.fst).Nodup)
    ∧ ∀ (sel : Nat → List Nat → List Nat → List Nat × List Nat)
        (st : RState) (A B : Coro) (s : Nat) (mA m' : Mode)
        (bs : List (Nat × Mode)) (ts : List Coro) (fuel : Nat)
        (res : List (Nat × Nat)) (lg : List Nat),
        st.tasks = B :: ts →
        B.steps = (s, m') :: bs →
        (s, A, mA) ∈ st.waiting →
        (st.waiting.map Prod.fst).Nodup →
        (∀ e ∈ st.waiting, e.2.1.cid = A.cid → e = (s, A, mA)) →
        A.cid ∉ st.tasks.map (fun c => c.cid) →
        A.cid ∉ st.results.map Prod.fst →
        A.cid ∉ st.flog →
        runAux sel fuel st = RunRes.ok res lg →
        A.cid ∉ res.map Prod.fst ∧ A.cid ∉ lg := by
  constructor
  · exact fun w s v hnd => dictUpd_keys_nodup s v w hnd
  · intro sel st A B s mA m' bs ts fuel res lg htasks hBsteps hAwait hknd huniq
      hAtasks hAres hAlog hrun
    have hBA : B.cid ≠ A.cid := by
      intro hEq
      apply hAtasks
      rw [htasks, ← hEq]
      simp
    have hdrainabs : ∀ w1 res1 lg1,
        drain st.tasks st.waiting st.results st.flog = Except.ok (w1, res1, lg1) →
        A.cid ∉ w1.map (fun e => e.2.1.cid) ∧ A.cid ∉ res1.map Prod.fst
          ∧ A.cid ∉ lg1 := by
      intro w1 res1 lg1 hdr
      rw [htasks] at hdr
      rw [show drain (B :: ts) st.waiting st.results st.flog
            = drain ts (dictUpd s (⟨B.cid, bs, B.outcome⟩, m') st.waiting)
                st.results st.flog
          from by simp [drain, resume, hBsteps]] at hdr
      refine drain_absent A.cid ts _ st.results st.flog w1 res1 lg1 ?_ ?_
        hAres hAlog hdr
      · intro hmem
        apply hAtasks
        rw [htasks]
        simp only [List.map_cons, List.mem_cons]
        exact Or.inr hmem
      · intro hmem
        obtain ⟨e, he, hecid⟩ := List.mem_map.mp hmem
        rcases mem_dictUpd_ne s (⟨B.cid, bs, B.outcome⟩, m') st.waiting hknd e he
          with hEq | ⟨hin, hne⟩
        · rw [hEq] at hecid
          exact hBA hecid
        · have heA := huniq e hin hecid
          rw [heA] at hne
          exact hne rfl
    exact runAux_absent sel A.cid fuel st res lg hdrainabs hAres hAlog hrun

/-- Witness for C9 at a concrete input: task `A` (identity 1) waits on
socket 5; pending task `B` (identity 2) yields socket 5; `A` is lost and
the run's results and finish log contain only identity 2. -/
theorem waiting_overwrite_loses_task_witness :
    ((dictUpd 5 ((⟨2, [], Outcome.value 20⟩ : Coro), Mode.w)
        [(5, (⟨1, [], Outcome.value 10⟩ : Coro), Mode.r)]).map Prod.fst).Nodup
    ∧ ((1 : Nat) ∉ ([(2, 20)] : List (Nat × Nat)).map Prod.fst
        ∧ (1 : Nat) ∉ ([2] : List Nat)) :=
  ⟨waiting_overwrite_loses_task.1
      [(5, (⟨1, [], Outcome.value 10⟩ : Coro), Mode.r)] 5
      ((⟨2, [], Outcome.value 20⟩ : Coro), Mode.w) (by decide),
   waiting_overwrite_loses_task.2 selAll
     ⟨[⟨2, [(5, Mode.w)], Outcome.value 20⟩],
       [(5, ⟨1, [], Outcome.value 10⟩, Mode.r)], [], []⟩
     ⟨1, [], Outcome.value 10⟩ ⟨2, [(5, Mode.w)], Outcome.value 20⟩
     5 Mode.r Mode.w [] [] 10 [(2, 20)] [2]
     rfl rfl (by decide) (by decide) (by decide) (by decide) (by decide)
     (by decide) (by decide)⟩

/-- C10, counterexample: the source does not strip only a *leading*
`http://` prefix — `url.replace('http://', '')` removes every occurrence.
On `"http://a/http://b"` the claimed parse yields path `"/http://b"`, but
the code yields path `"/b"`. -/
theorem url_parse_counterexample :
    parseUrl ("http://a/http://b".toList) = ("a".toList, "/b".toList)
      ∧ claimParseUrl ("http://a/http://b".toList) = ("a".toList, "/http://b".toList)
      ∧ parseUrl ("http://a/http://b".toList) ≠ claimParseUrl ("http://a/http://b".toList) := by
  refine ⟨by decide, by decide, by decide⟩

/-- C10, amended: `http_request` removes *every* occurrence of
`http://` from the URL (Python `str.replace`, scanning left to right), in
particular a leading one; it then takes the host as all characters before
the first `'/'` of the remainder and `'/'` followed by the rest as the
request path, the path defaulting to exactly `"/"` when the remainder
contains no `'/'` (or nothing after it). -/
theorem url_parse_amended (url : List Char) :
    parseUrl url =
      ((removeHttp url).takeWhile (fun c => c != '/'),
        if ((removeHttp url).dropWhile (fun c => c != '/')).tail ≠ [] then
          '/' :: ((removeHttp url).dropWhile (fun c => c != '/')).tail
        else [ '/' ])
      ∧ removeHttp ('h' :: 't' :: 't' :: 'p' :: ':' :: '/' :: '/' :: url) = removeHttp url := by
  constructor
  · simp only [parseUrl, partSlash_spec]
  · simp [removeHttp]

end Coroutines
